import Mathlib

/-!
Verification of `queue.c`, a singly linked queue of C strings.

The development embeds `src/queue.c` in Lean.

* Memory holding the list elements is a heap of cells indexed by address
  (`Heap`).  A pointer is an `Option Nat`, `none` being `NULL`.  `malloc`
  hands out the next unused address and `free` kills the cell, so an address
  is never handed out twice and a pointer to a freed element stays dangling.
* Every function of the C file is a Lean function of the same name.  A result
  of `none` stands for undefined behaviour of the C program: dereferencing
  `NULL` or a freed element, or writing outside a buffer.
* Values of type `int` are integers in the range of 32 bit two's complement:
  a `size_t` assigned to an `int` and the results of `++`, `--` and `-` on
  an `int` are reduced into that range (`wrap_int`), as the compiled code
  does.  Values of type `size_t` are naturals below `2 ^ 64`.
* Loops and recursions over the list carry a fuel argument; the callers take
  it from the size of the heap, which the theorems show to be enough on every
  chain that ends in `NULL`.  Running out of fuel also gives `none`.
* Byte strings are lists of byte values.  A list denotes the C string made of
  the bytes before its first zero byte (or all of it when it holds no zero).
* `malloc` may fail; every call site takes a flag saying whether it succeeds.
-/

namespace Queue

/-! ## Machine integers and the C library routines used by the file -/

/-- Largest value of the C type `int` (32 bit). -/
def INT_MAX : Int := 2147483647

/-- Smallest value of the C type `int`. -/
def INT_MIN : Int := -2147483648

/-- Reduction of an integer into the range of `int`: the value modulo `2 ^ 32`
that lies between `INT_MIN` and `INT_MAX`. -/
def wrap_int (i : Int) : Int := (i + 2147483648) % 4294967296 - 2147483648

/-- Conversion of a `size_t` value to `int`: the low 32 bits, read as a signed
number. -/
def to_int (n : Nat) : Int := wrap_int (n : Int)

/-- Conversion of an `int` to the 64 bit unsigned type `size_t`
(reduction modulo `2 ^ 64`). -/
def to_size_t (i : Int) : Nat := (i % (2 ^ 64 : Int)).toNat

/-- The C string held in a byte region: the bytes before the first zero. -/
def cstr (s : List Nat) : List Nat := s.takeWhile (fun b => b != 0)

/-- C library `strlen`. -/
def strlen (s : List Nat) : Nat := (cstr s).length

/-- C library `strnlen`. -/
def strnlen (s : List Nat) (maxlen : Nat) : Nat := min (strlen s) maxlen

/-- C library `bzero(dst, n)`: the region `dst` after the call, undefined when
`n` exceeds the extent of the region. -/
def bzero (dst : List Nat) (n : Nat) : Option (List Nat) :=
  if n ≤ dst.length then some (List.replicate n 0 ++ dst.drop n) else none

/-- C library `strncpy(dst, src, n)`: exactly `n` bytes are written, the first
`min n (strlen src)` of them from `src` and zeros after that; undefined when
`n` exceeds the extent of `dst`. -/
def strncpy (dst src : List Nat) (n : Nat) : Option (List Nat) :=
  if n ≤ dst.length then
    some ((cstr src).take n ++ List.replicate (n - strlen src) 0 ++ dst.drop n)
  else none

/-- Byte-wise lexicographic comparison of two zero-free byte sequences,
with the sign convention of `strcmp`. -/
def lexcmp : List Nat → List Nat → Int
  | [], [] => 0
  | [], _ :: _ => -1
  | _ :: _, [] => 1
  | x :: xs, y :: ys => if x = y then lexcmp xs ys else (x : Int) - (y : Int)

/-- C library `strcmp`. -/
def strcmp (a b : List Nat) : Int := lexcmp (cstr a) (cstr b)

/-- Bytes of a block just returned by `malloc n`.  The contents are
indeterminate in C; both call sites overwrite the whole block with `bzero`
before reading it. -/
def malloc_bytes (n : Nat) : List Nat := List.replicate n 0

/-! ## Data model (`queue.h`) -/

/-- Linked list element: `char *value; struct ELE *next;`.  The value buffer
is owned by the element and is stored with it. -/
structure list_ele_t where
  value : Option (List Nat)
  next : Option Nat
deriving DecidableEq

/-- Queue structure: `list_ele_t *head; list_ele_t *tail; int size;`.  The
field `size` is an `int`: the functions that change it reduce the result into
the range of `int` (`wrap_int`), so it stays between `INT_MIN` and `INT_MAX`. -/
structure queue_t where
  head : Option Nat
  tail : Option Nat
  size : Int
deriving DecidableEq

/-- Heap of list elements; a cell is `none` once freed. -/
abbrev Heap := List (Option list_ele_t)

/-- Read the element at an address; `none` when the address is not live. -/
def load (h : Heap) (p : Nat) : Option list_ele_t := h[p]?.join

/-- Overwrite the element at an address. -/
def store (h : Heap) (p : Nat) (n : list_ele_t) : Heap := h.set p (some n)

/-- Release of an element: `free(p)`. -/
def free (h : Heap) (p : Nat) : Heap := h.set p none

/-- Assignment `p->next = v`; undefined when `p` is not live. -/
def set_next (h : Heap) (p : Nat) (v : Option Nat) : Option Heap :=
  (load h p).map (fun n => store h p { n with next := v })

/-- Program state: the element heap and the queue the pointer `q` refers to
(`none` for a `NULL` queue pointer). -/
structure State where
  heap : Heap
  q : Option queue_t
deriving DecidableEq

/-! ## The functions of `queue.c` -/

/-- Source `q_new`: `ok` tells whether the allocation succeeds. -/
def q_new (heap : Heap) (ok : Bool) : State :=
  { heap := heap, q := if ok then some { head := none, tail := none, size := 0 } else none }

/-- Source `q_insert_head`.  `node_ok` and `value_ok` tell whether the first
and the second `malloc` succeed. -/
def q_insert_head (st : State) (s : List Nat) (node_ok value_ok : Bool) :
    Option (State × Bool) :=
  match st.q with
  | none => some (st, false)
  | some q =>
    if node_ok = false then some (st, false) else
    let newh := st.heap.length
    let len := to_int (strlen s + 1)
    if value_ok = false then some ({ heap := st.heap ++ [none], q := some q }, false) else
    (bzero (malloc_bytes (to_size_t len)) (to_size_t len)).bind fun v0 =>
    (strncpy v0 s (to_size_t (wrap_int (len - 1)))).bind fun v =>
    let heap := st.heap ++ [some { value := some v, next := q.head }]
    let tail := if q.tail = none then some newh else q.tail
    some ({ heap := heap,
            q := some { head := some newh, tail := tail, size := wrap_int (q.size + 1) } },
      true)

/-- Source `q_insert_tail`. -/
def q_insert_tail (st : State) (s : List Nat) (node_ok value_ok : Bool) :
    Option (State × Bool) :=
  match st.q with
  | none => some (st, false)
  | some q =>
    if node_ok = false then some (st, false) else
    let newh := st.heap.length
    let len := to_int (strlen s + 1)
    if value_ok = false then some ({ heap := st.heap ++ [none], q := some q }, false) else
    (bzero (malloc_bytes (to_size_t len)) (to_size_t len)).bind fun v0 =>
    (strncpy v0 s (to_size_t (wrap_int (len - 1)))).bind fun v =>
    let heap := st.heap ++ [some { value := some v, next := none }]
    match q.head with
    | none =>
      some ({ heap := heap,
              q := some { head := some newh, tail := some newh,
                          size := wrap_int (q.size + 1) } }, true)
    | some hd =>
      match q.tail with
      | none => none
      | some t =>
        (set_next heap t (some newh)).bind fun heap2 =>
        (load heap2 t).bind fun nt =>
        some ({ heap := heap2,
                q := some { head := some hd, tail := nt.next,
                            size := wrap_int (q.size + 1) } }, true)

/-- Length handed to `strncpy` by `q_remove_head` for a stored string `s` and
buffer size `bufsize` (lines 145-148): `int len = strnlen(s, bufsize);
if (len == bufsize) len--;`, then converted to `size_t` at the call. -/
def copy_len (s : List Nat) (bufsize : Nat) : Nat :=
  let len := to_int (strnlen s bufsize)
  to_size_t (if to_size_t len = bufsize then wrap_int (len - 1) else len)

/-- Source `q_remove_head`.  `sp` is the caller's buffer (`none` for `NULL`),
given by the bytes of its extent; the result carries the buffer after the
call and the returned flag. -/
def q_remove_head (st : State) (sp : Option (List Nat)) (bufsize : Nat) :
    Option (State × Option (List Nat) × Bool) :=
  match st.q with
  | none => some (st, sp, false)
  | some q =>
    match q.head with
    | none => some (st, sp, false)
    | some hd =>
      (load st.heap hd).bind fun node =>
      let out : Option (Option (List Nat)) :=
        match sp, node.value with
        | some buf, some s =>
          (bzero buf bufsize).bind fun b0 =>
          (strncpy b0 s (copy_len s bufsize)).map some
        | _, _ => some sp
      out.bind fun sp2 =>
      some ({ heap := free st.heap hd,
              q := some { head := node.next, tail := q.tail,
                          size := wrap_int (q.size - 1) } }, sp2, true)

/-- Source `q_size`. -/
def q_size (st : State) : Int :=
  match st.q with
  | none => 0
  | some q => q.size

/-- Loop of `q_reverse` (lines 192-197); `head` is `q->head`. -/
def reverse_loop : Nat → Heap → Option Nat → Option Nat → Option (Heap × Option Nat)
  | _, h, head, none => some (h, head)
  | 0, _, _, some _ => none
  | fuel + 1, h, head, some c =>
    (load h c).bind fun n =>
    reverse_loop fuel (store h c { n with next := head }) (some c) n.next

/-- Source `q_reverse`. -/
def q_reverse (st : State) : Option State :=
  match st.q with
  | none => some st
  | some q =>
    match q.head with
    | none => some st
    | some hd =>
      (reverse_loop st.heap.length st.heap none (some hd)).map fun r =>
        { heap := r.1, q := some { head := r.2, tail := some hd, size := q.size } }

/-- Loop of `split` (lines 211-213): `k` times `tmp = tmp->next`. -/
def advance : Nat → Heap → Option Nat → Option (Option Nat)
  | 0, _, tmp => some tmp
  | k + 1, h, tmp =>
    match tmp with
    | none => none
    | some a => (load h a).bind fun n => advance k h n.next

/-- Source `split`; the result is the heap after the cut followed by
`*left_ref`, `*right_ref`, `*left_size`, `*right_size`. -/
def split (h : Heap) (head : Option Nat) (size : Int) :
    Option (Heap × Option Nat × Option Nat × Int × Int) :=
  let left_size := Int.tdiv size 2 + Int.tmod size 2
  let right_size := Int.tdiv size 2
  (advance (left_size - 1).toNat h head).bind fun tmp =>
  match tmp with
  | none => none
  | some t =>
    (load h t).bind fun n =>
    some (store h t { n with next := none }, head, n.next, left_size, right_size)

/-- Source `merge`; `fuel` bounds the depth of the recursion. -/
def merge : Nat → Heap → Option Nat → Option Nat → Option (Heap × Option Nat)
  | _, h, none, right => some (h, right)
  | _, h, some l, none => some (h, some l)
  | 0, _, some _, some _ => none
  | fuel + 1, h, some l, some r =>
    (load h l).bind fun nl =>
    (load h r).bind fun nr =>
    nl.value.bind fun vl =>
    nr.value.bind fun vr =>
    if strcmp vl vr < 0 then
      (merge fuel h nl.next (some r)).bind fun res =>
      (set_next res.1 l res.2).map fun h2 => (h2, some l)
    else
      (merge fuel h (some l) nr.next).bind fun res =>
      (set_next res.1 r res.2).map fun h2 => (h2, some r)

/-- Source `merge_sort`; `fuel` bounds the depth of the recursion. -/
def merge_sort : Nat → Heap → Option Nat → Int → Option (Heap × Option Nat)
  | _, h, none, _ => some (h, none)
  | 0, _, some _, _ => none
  | fuel + 1, h, some a, size =>
    (load h a).bind fun n =>
    if n.next = none then some (h, some a) else
    (split h (some a) size).bind fun sp =>
    (merge_sort fuel sp.1 sp.2.1 sp.2.2.2.1).bind fun l =>
    (merge_sort fuel l.1 sp.2.2.1 sp.2.2.2.2).bind fun r =>
    merge r.1.length r.1 l.2 r.2

/-- Loop of `q_sort` (lines 269-271): walk `q->tail` to the last element. -/
def last_node : Nat → Heap → Nat → Option Nat
  | 0, _, _ => none
  | fuel + 1, h, t =>
    (load h t).bind fun n =>
    match n.next with
    | none => some t
    | some t2 => last_node fuel h t2

/-- Source `q_sort`. -/
def q_sort (st : State) : Option State :=
  match st.q with
  | none => some st
  | some q =>
    match q.head with
    | none => some st
    | some a =>
      (load st.heap a).bind fun n =>
      if n.next = none then some st else
      (merge_sort st.heap.length st.heap (some a) q.size).bind fun r =>
      match r.2 with
      | none => none
      | some p =>
        (last_node r.1.length r.1 p).map fun t =>
          { heap := r.1, q := some { head := some p, tail := some t, size := q.size } }

/-! ## Specification vocabulary -/

/-- Following `next` from `p` visits the addresses `as` in order and then
arrives at `e`. -/
def Seg (h : Heap) : Option Nat → List Nat → Option Nat → Prop
  | p, [], e => p = e
  | p, a :: as, e => p = some a ∧ ∃ n, load h a = some n ∧ Seg h n.next as e

/-- The list reachable from `p` consists of the elements at `as`, in order,
the last one having a `NULL` next. -/
def Chain (h : Heap) (p : Option Nat) (as : List Nat) : Prop := Seg h p as none

/-- The element at `a` is live and owns a value buffer whose size is
representable as an `int`, as is every buffer allocated by the insert
functions. -/
def stored (h : Heap) (a : Nat) : Bool :=
  match (load h a).bind (fun n => n.value) with
  | some v => decide ((v.length : Int) ≤ INT_MAX)
  | none => false

/-- Every element at the given addresses owns a value buffer. -/
def HasValues (h : Heap) (as : List Nat) : Prop := ∀ a ∈ as, stored h a = true

/-- The element at `a` is live and its value pointer is not `NULL`. -/
def has_value (h : Heap) (a : Nat) : Bool := ((load h a).bind (fun n => n.value)).isSome

/-- Every element at the given addresses holds a string. -/
def Valued (h : Heap) (as : List Nat) : Prop := ∀ a ∈ as, has_value h a = true

/-- Value buffer of the element at an address (empty when there is none). -/
def val (h : Heap) (a : Nat) : List Nat := ((load h a).bind (fun n => n.value)).getD []

/-- Strings held by the elements at the given addresses. -/
def values (h : Heap) (as : List Nat) : List (List Nat) := as.map (fun a => cstr (val h a))

/-- Order on strings: `strcmp x y <= 0`. -/
def str_le (x y : List Nat) : Prop := strcmp x y ≤ 0

/-- The order in which `merge` links the elements of two chains, read off the
addresses; `key` gives the value buffer of an address. -/
def merge_list (key : Nat → List Nat) : List Nat → List Nat → List Nat
  | [], rs => rs
  | l :: ls, [] => l :: ls
  | l :: ls, r :: rs =>
    if strcmp (key l) (key r) < 0 then l :: merge_list key ls (r :: rs)
    else r :: merge_list key (l :: ls) rs

/-- The order in which `merge_sort` leaves the elements of a chain. -/
def merge_sort_list (key : Nat → List Nat) : Nat → List Nat → List Nat
  | 0, as => as
  | fuel + 1, as =>
    if as.length ≤ 1 then as
    else merge_list key (merge_sort_list key fuel (as.take ((as.length + 1) / 2)))
      (merge_sort_list key fuel (as.drop ((as.length + 1) / 2)))

/-- Order of the chain after `q_sort`, for a chain `as` in heap `h`. -/
def sorted_chain (h : Heap) (as : List Nat) : List Nat :=
  merge_sort_list (val h) h.length as

/-- Heap `h2` is `h` with, at most, the `next` fields of the elements at the
addresses `S` changed: no element is created or destroyed and no value buffer
is touched. -/
structure Relink (h h2 : Heap) (S : List Nat) : Prop where
  length_eq : h2.length = h.length
  frame : ∀ a, a ∉ S → load h2 a = load h a
  value_eq : ∀ a, (load h2 a).map (fun n => n.value) = (load h a).map (fun n => n.value)

/-- One call of the public interface. -/
inductive Op where
  | insert_head (s : List Nat) (node_ok value_ok : Bool)
  | insert_tail (s : List Nat) (node_ok value_ok : Bool)
  | remove_head (sp : Option (List Nat)) (bufsize : Nat)
  | reverse
  | sort
deriving DecidableEq

/-- State after one call; `none` when the call has undefined behaviour. -/
def step (st : State) : Op → Option State
  | Op.insert_head s a b => (q_insert_head st s a b).map (fun r => r.1)
  | Op.insert_tail s a b => (q_insert_tail st s a b).map (fun r => r.1)
  | Op.remove_head sp n => (q_remove_head st sp n).map (fun r => r.1)
  | Op.reverse => q_reverse st
  | Op.sort => q_sort st

/-- State after a sequence of calls. -/
def run (st : State) : List Op → Option State
  | [] => some st
  | op :: ops => (step st op).bind fun st2 => run st2 ops

/-- States reachable from the empty queue made by `q_new`. -/
def Reachable (st : State) : Prop := ∃ ops, run (q_new [] true) ops = some st

/-- The queue invariant of the data model for a present queue: `size` is the
number of elements reachable from `head`; when `size` is 0 both `head` and
`tail` are absent; when `size > 0`, `tail` is the last element reachable from
`head` (after `size - 1` steps) and its `next` is absent. -/
def Invariant (st : State) : Prop :=
  ∃ q as, st.q = some q ∧ Chain st.heap q.head as ∧ q.size = (as.length : Int) ∧
    (q.size = 0 → q.head = none ∧ q.tail = none) ∧
    (0 < q.size → ∃ xs t n, as = xs ++ [t] ∧ q.tail = some t ∧
      load st.heap t = some n ∧ n.next = none)

/-- The caller's buffer is usable with the size passed along: it is `NULL`, or
it extends over at least `bufsize` bytes and `bufsize` is not zero. -/
def ValidBuffer (sp : Option (List Nat)) (bufsize : Nat) : Prop :=
  match sp with
  | none => True
  | some buf => 1 ≤ bufsize ∧ bufsize ≤ buf.length

/-- Decision procedure for `Seg`. -/
def Seg.dec (h : Heap) : (p : Option Nat) → (as : List Nat) → (e : Option Nat) →
    Decidable (Seg h p as e)
  | p, [], e => if hp : p = e then isTrue hp else isFalse hp
  | p, a :: as, e =>
    if hp : p = some a then
      match hl : load h a with
      | none => isFalse (fun hs => by
          obtain ⟨_, n, hn, _⟩ := hs
          rw [hl] at hn; cases hn)
      | some n =>
        match Seg.dec h n.next as e with
        | isTrue hr => isTrue ⟨hp, n, hl, hr⟩
        | isFalse hr => isFalse (fun hs => by
            obtain ⟨_, n2, hn, hr2⟩ := hs
            rw [hl] at hn; cases hn
            exact hr hr2)
    else isFalse (fun hs => hp hs.1)

instance (h : Heap) (p : Option Nat) (as : List Nat) (e : Option Nat) :
    Decidable (Seg h p as e) := Seg.dec h p as e

instance (h : Heap) (p : Option Nat) (as : List Nat) : Decidable (Chain h p as) :=
  Seg.dec h p as none

instance (h : Heap) (as : List Nat) : Decidable (HasValues h as) := by
  unfold HasValues; infer_instance

instance (h : Heap) (as : List Nat) : Decidable (Valued h as) := by
  unfold Valued; infer_instance

instance (x y : List Nat) : Decidable (str_le x y) := by
  unfold str_le; infer_instance

/-- The queue `b, a, c` of the sort scenario. -/
def ex_bac : State :=
  { heap := [some { value := some [98, 0], next := some 1 },
             some { value := some [97, 0], next := some 2 },
             some { value := some [99, 0], next := none }],
    q := some { head := some 0, tail := some 2, size := 3 } }

/-- The one-element queue `a`, made by `q_insert_head` on a new queue. -/
def ex_a : State :=
  { heap := [some { value := some [97, 0], next := none }],
    q := some { head := some 0, tail := some 0, size := 1 } }

/-- The queue `a, b, c`, made by three `q_insert_tail` calls on a new queue. -/
def ex_abc : State :=
  { heap := [some { value := some [97, 0], next := some 1 },
             some { value := some [98, 0], next := some 2 },
             some { value := some [99, 0], next := none }],
    q := some { head := some 0, tail := some 2, size := 3 } }

/-- The state reached from a new queue by inserting `a` at the head, removing
it, and inserting `b` at the head: the chain is `b` and `tail` still refers to
the freed element. -/
def ex_stale : State :=
  { heap := [none, some { value := some [98, 0], next := none }],
    q := some { head := some 1, tail := some 0, size := 1 } }

instance (sp : Option (List Nat)) (n : Nat) : Decidable (ValidBuffer sp n) :=
  match sp with
  | none => isTrue trivial
  | some buf => inferInstanceAs (Decidable (1 ≤ n ∧ n ≤ buf.length))

/-- Calls `q_remove_head` `n` times with the same buffer and collects the
string left in the buffer by each call. -/
def remove_n : Nat → State → List Nat → Nat → Option (State × List (List Nat))
  | 0, st, _, _ => some (st, [])
  | n + 1, st, buf, bufsize =>
    (q_remove_head st (some buf) bufsize).bind fun r =>
      match r.2.1, r.2.2 with
      | some out, true => (remove_n n r.1 out bufsize).map fun r2 => (r2.1, cstr out :: r2.2)
      | _, _ => none

/-- Buffer contents after `q_remove_head` copied the stored buffer `v` into a
buffer `buf` with size `c`: the first `c - 1` bytes of the string, zeros up to
index `c`, and the bytes of `buf` from index `c` on. -/
def copied (v buf : List Nat) (c : Nat) : List Nat :=
  (cstr v).take (c - 1) ++ List.replicate (c - min (strlen v) (c - 1)) 0 ++ buf.drop c

/-- A heap with two disjoint sorted chains: `a, c` from address 1 and `b` from
address 0. -/
def ex_two_chains : Heap :=
  [some { value := some [98, 0], next := none },
   some { value := some [97, 0], next := some 2 },
   some { value := some [99, 0], next := none }]

/-- The queue `c, a, b` of the reverse scenario, made by `q_insert_tail "a"`,
`q_insert_tail "b"`, `q_insert_head "c"` on a new queue. -/
def ex_cab : State :=
  { heap := [some { value := some [97, 0], next := some 1 },
             some { value := some [98, 0], next := none },
             some { value := some [99, 0], next := some 0 }],
    q := some { head := some 2, tail := some 1, size := 3 } }

/-- The queue of two elements that both hold the string `a`. -/
def ex_aa : State :=
  { heap := [some { value := some [97, 0], next := some 1 },
             some { value := some [97, 0], next := none }],
    q := some { head := some 0, tail := some 1, size := 2 } }

/-- Stability of `q_sort` on the queue of `st` with chain `as`: two elements
that hold byte-equal values come out in the relative order they had. -/
def StableSort (st : State) (as : List Nat) : Prop :=
  ∀ st2 q2 bs, q_sort st = some st2 → st2.q = some q2 → Chain st2.heap q2.head bs →
    ∀ x y, List.Sublist [x, y] as → strcmp (val st.heap x) (val st.heap y) = 0 →
      List.Sublist [x, y] bs

/-- Value buffer built for the string `s` by lines 65-72 of `q_insert_head`
(and 106-113 of `q_insert_tail`): a block of `len` bytes, zeroed, with the
string copied over its first `len - 1` bytes, where `int len = strlen(s) + 1`;
`none` when the copy would write outside the block. -/
def dup_value (s : List Nat) : Option (List Nat) :=
  (bzero (malloc_bytes (to_size_t (to_int (strlen s + 1))))
    (to_size_t (to_int (strlen s + 1)))).bind fun v0 =>
  strncpy v0 s (to_size_t (wrap_int (to_int (strlen s + 1) - 1)))

/-- What holds of the queue in every reachable state as long as the queue has
not held more than `INT_MAX` elements: the chain from `head` ends in `NULL`,
its elements hold strings, `size` is its length, and `tail` is its last element
or refers to an element that has been freed. -/
def Good (st : State) : Prop :=
  ∃ q as, st.q = some q ∧ Chain st.heap q.head as ∧ q.size = (as.length : Int) ∧
    (as.length : Int) ≤ INT_MAX ∧ Valued st.heap as ∧
    (q.tail = as.getLast? ∨ ∃ t, q.tail = some t ∧ t < st.heap.length ∧ load st.heap t = none)

/-- Whether the call `op` made in state `st` is an insert that returns
`true`. -/
def is_insert (st : State) : Op → Bool
  | Op.insert_head s a b => (q_insert_head st s a b).any (fun r => r.2)
  | Op.insert_tail s a b => (q_insert_tail st s a b).any (fun r => r.2)
  | _ => false

/-- Whether the call `op` made in state `st` is a remove that returns
`true`. -/
def is_remove (st : State) : Op → Bool
  | Op.remove_head sp n => (q_remove_head st sp n).any (fun r => r.2.2)
  | _ => false

/-- Numbers of successful inserts and of successful removes in a sequence of
calls started in state `st`. -/
def tally : State → List Op → Nat × Nat
  | _, [] => (0, 0)
  | st, op :: ops =>
    let rest := match step st op with
      | some st2 => tally st2 ops
      | none => (0, 0)
    (rest.1 + (if is_insert st op then 1 else 0), rest.2 + (if is_remove st op then 1 else 0))

/-- The count of successful inserts less successful removes stays at most
`INT_MAX` after every initial part of the sequence of calls `ops` started in
state `st`: the queue never holds more than `INT_MAX` elements. -/
def Bounded (st : State) (ops : List Op) : Prop :=
  ∀ k, k ≤ ops.length →
    ((tally st (ops.take k)).1 : Int) - ((tally st (ops.take k)).2 : Int) ≤ INT_MAX

instance (st : State) (ops : List Op) : Decidable (Bounded st ops) := by
  unfold Bounded; infer_instance

/-- The queue `b, a`, made by `q_insert_head "b"` on the queue `a`. -/
def ex_ba : State :=
  { heap := [some { value := some [97, 0], next := none },
             some { value := some [98, 0], next := some 0 }],
    q := some { head := some 1, tail := some 0, size := 2 } }

/-- The queue made by `q_insert_head` on a new queue with a string of
`2 ^ 32 + 2` letters `a`: it holds `aa`. -/
def ex_cut : State :=
  { heap := [some { value := some [97, 97, 0], next := none }],
    q := some { head := some 0, tail := some 0, size := 1 } }

/-! ## Heap access -/

theorem load_eq_some {h : Heap} {p : Nat} {n : list_ele_t} :
    load h p = some n ↔ h[p]? = some (some n) := by
  unfold load
  cases h[p]? with
  | none => simp
  | some c => cases c <;> simp

theorem load_lt {h : Heap} {p : Nat} {n : list_ele_t} (hl : load h p = some n) :
    p < h.length := by
  rw [load_eq_some] at hl
  by_contra hc
  rw [List.getElem?_eq_none (by omega)] at hl
  cases hl

theorem load_store_same {h : Heap} {p : Nat} (n : list_ele_t) (hp : p < h.length) :
    load (store h p n) p = some n := by
  simp [load, store, List.getElem?_set, hp]

theorem load_store_ne {h : Heap} {p a : Nat} (n : list_ele_t) (hne : a ≠ p) :
    load (store h p n) a = load h a := by
  simp [load, store, List.getElem?_set, Ne.symm hne]

theorem length_store (h : Heap) (p : Nat) (n : list_ele_t) :
    (store h p n).length = h.length := by
  simp [store]

theorem load_free_same (h : Heap) (p : Nat) : load (free h p) p = none := by
  simp only [load, free, List.getElem?_set]
  split <;> simp_all

theorem load_free_ne {h : Heap} {p a : Nat} (hne : a ≠ p) :
    load (free h p) a = load h a := by
  simp [load, free, List.getElem?_set, Ne.symm hne]

theorem load_append_of_some {h : Heap} {a : Nat} {n : list_ele_t} (c : Option list_ele_t)
    (hl : load h a = some n) : load (h ++ [c]) a = some n := by
  have hlt := load_lt hl
  rw [load_eq_some] at hl ⊢
  rw [List.getElem?_append_left hlt]; exact hl

theorem load_append_new (h : Heap) (c : Option list_ele_t) :
    load (h ++ [c]) h.length = c := by
  simp [load]

/-! ## Chains -/

theorem seg_nil {h : Heap} {p e : Option Nat} : Seg h p [] e ↔ p = e := Iff.rfl

theorem seg_cons {h : Heap} {p e : Option Nat} {a : Nat} {as : List Nat} :
    Seg h p (a :: as) e ↔ p = some a ∧ ∃ n, load h a = some n ∧ Seg h n.next as e := Iff.rfl

theorem seg_append {h : Heap} {xs ys : List Nat} {p e : Option Nat} :
    Seg h p (xs ++ ys) e ↔ ∃ m, Seg h p xs m ∧ Seg h m ys e := by
  induction xs generalizing p with
  | nil => simp [seg_nil]
  | cons a xs ih =>
    simp only [List.cons_append, seg_cons, ih]
    constructor
    · rintro ⟨hp, n, hn, m, h1, h2⟩
      exact ⟨m, ⟨hp, n, hn, h1⟩, h2⟩
    · rintro ⟨m, ⟨hp, n, hn, h1⟩, h2⟩
      exact ⟨hp, n, hn, m, h1, h2⟩

theorem seg_frame {h h2 : Heap} {as : List Nat} {p e : Option Nat}
    (hf : ∀ a ∈ as, load h2 a = load h a) (hs : Seg h p as e) : Seg h2 p as e := by
  induction as generalizing p with
  | nil => exact hs
  | cons a as ih =>
    obtain ⟨hp, n, hn, hr⟩ := hs
    refine ⟨hp, n, ?_, ih (fun b hb => hf b (List.mem_cons_of_mem _ hb)) hr⟩
    rw [hf a (List.mem_cons_self _ _)]; exact hn

theorem seg_functional {h : Heap} {as bs : List Nat} {p : Option Nat}
    (h1 : Seg h p as none) (h2 : Seg h p bs none) : as = bs := by
  induction as generalizing p bs with
  | nil =>
    cases bs with
    | nil => rfl
    | cons b bs => rw [seg_nil] at h1; rw [seg_cons, h1] at h2; simp at h2
  | cons a as ih =>
    obtain ⟨hp, n, hn, hr⟩ := h1
    cases bs with
    | nil => rw [seg_nil] at h2; rw [h2] at hp; cases hp
    | cons b bs =>
      obtain ⟨hp2, n2, hn2, hr2⟩ := h2
      rw [hp] at hp2
      cases hp2
      rw [hn] at hn2
      cases hn2
      rw [ih hr hr2]

theorem chain_suffix {h : Heap} {xs ys : List Nat} {p : Option Nat}
    (hc : Chain h p (xs ++ ys)) : ∃ m, Chain h m ys := by
  obtain ⟨m, _, h2⟩ := seg_append.mp hc
  exact ⟨m, h2⟩

theorem chain_nodup {h : Heap} {as : List Nat} {p : Option Nat} (hc : Chain h p as) :
    as.Nodup := by
  induction as generalizing p with
  | nil => exact List.nodup_nil
  | cons a as ih =>
    obtain ⟨hp, n, hn, hr⟩ := hc
    refine List.nodup_cons.mpr ⟨?_, ih hr⟩
    intro hmem
    obtain ⟨xs, ys, rfl⟩ := List.append_of_mem hmem
    obtain ⟨m, h1, h2⟩ := seg_append.mp hr
    have h3 : Seg h (some a) (a :: (xs ++ a :: ys)) none := ⟨rfl, n, hn, hr⟩
    have hm := h2.1
    rw [hm] at h2
    have := seg_functional h3 h2
    have hlen := congrArg List.length this
    simp at hlen
    omega

theorem chain_live {h : Heap} {as : List Nat} {p e : Option Nat} (hc : Seg h p as e)
    {a : Nat} (ha : a ∈ as) : ∃ n, load h a = some n := by
  induction as generalizing p with
  | nil => cases ha
  | cons b as ih =>
    obtain ⟨_, n, hn, hr⟩ := hc
    rcases List.mem_cons.mp ha with rfl | hm
    · exact ⟨n, hn⟩
    · exact ih hr hm

theorem chain_length_le {h : Heap} {as : List Nat} {p : Option Nat} (hc : Chain h p as) :
    as.length ≤ h.length := by
  have hnd := chain_nodup hc
  have hsub : as.toFinset ⊆ Finset.range h.length := by
    intro a ha
    obtain ⟨n, hn⟩ := chain_live hc (List.mem_toFinset.mp ha)
    exact Finset.mem_range.mpr (load_lt hn)
  have := Finset.card_le_card hsub
  rwa [List.toFinset_card_of_nodup hnd, Finset.card_range] at this

/-! ## Order induced by `strcmp` -/

theorem lexcmp_self (a : List Nat) : lexcmp a a = 0 := by
  induction a with
  | nil => rfl
  | cons x xs ih => simp [lexcmp, ih]

theorem lexcmp_flip (a b : List Nat) : (lexcmp a b < 0 ↔ 0 < lexcmp b a) ∧
    (lexcmp a b = 0 ↔ lexcmp b a = 0) := by
  induction a generalizing b with
  | nil => cases b <;> simp [lexcmp]
  | cons x xs ih =>
    cases b with
    | nil => simp [lexcmp]
    | cons y ys =>
      simp only [lexcmp]
      by_cases hxy : x = y
      · subst hxy; simpa using ih ys
      · have hyx : ¬ y = x := fun e => hxy e.symm
        rw [if_neg hxy, if_neg hyx]
        constructor <;> constructor <;> intro hh <;> omega

theorem lexcmp_trans {a b c : List Nat} (h1 : lexcmp a b ≤ 0) (h2 : lexcmp b c ≤ 0) :
    lexcmp a c ≤ 0 := by
  induction a generalizing b c with
  | nil => cases c <;> simp [lexcmp]
  | cons x xs ih =>
    cases b with
    | nil => simp [lexcmp] at h1
    | cons y ys =>
      cases c with
      | nil => simp [lexcmp] at h2
      | cons z zs =>
        simp only [lexcmp] at h1 h2 ⊢
        by_cases hxy : x = y
        · subst hxy
          rw [if_pos rfl] at h1
          by_cases hxz : x = z
          · subst hxz
            rw [if_pos rfl] at h2 ⊢
            exact ih h1 h2
          · rw [if_neg hxz] at h2 ⊢; exact h2
        · rw [if_neg hxy] at h1
          by_cases hyz : y = z
          · subst hyz
            rw [if_neg hxy]; exact h1
          · rw [if_neg hyz] at h2
            have hxz : ¬ x = z := by omega
            rw [if_neg hxz]; omega

theorem str_le_trans {x y z : List Nat} (h1 : str_le x y) (h2 : str_le y z) : str_le x z :=
  lexcmp_trans h1 h2

theorem str_le_of_not_lt {x y : List Nat} (h : ¬ strcmp x y < 0) : str_le y x := by
  unfold str_le strcmp at *
  have := lexcmp_flip (cstr y) (cstr x)
  by_contra hc
  have h3 : 0 < lexcmp (cstr y) (cstr x) := by omega
  have := (lexcmp_flip (cstr x) (cstr y)).1.mpr h3
  omega

theorem str_le_of_lt {x y : List Nat} (h : strcmp x y < 0) : str_le x y := by
  unfold str_le; omega

/-! ## The sort on address sequences -/

theorem merge_list_perm (key : Nat → List Nat) (ls rs : List Nat) :
    (merge_list key ls rs).Perm (ls ++ rs) := by
  induction ls generalizing rs with
  | nil => simp [merge_list]
  | cons l ls ihl =>
    induction rs with
    | nil => simp [merge_list]
    | cons r rs ihr =>
      rw [merge_list]
      split
      · exact (ihl (r :: rs)).cons l
      · refine (ihr.cons r).trans ?_
        exact List.perm_middle.symm

theorem merge_list_sorted (key : Nat → List Nat) (ls rs : List Nat)
    (hl : ls.Pairwise (fun a b => str_le (key a) (key b)))
    (hr : rs.Pairwise (fun a b => str_le (key a) (key b))) :
    (merge_list key ls rs).Pairwise (fun a b => str_le (key a) (key b)) := by
  induction ls generalizing rs with
  | nil => simpa [merge_list] using hr
  | cons l ls ihl =>
    induction rs with
    | nil => simpa [merge_list] using hl
    | cons r rs ihr =>
      rw [merge_list]
      split
      · rename_i hlt
        refine List.pairwise_cons.mpr ⟨?_, ihl (r :: rs) (List.pairwise_cons.mp hl).2 hr⟩
        intro b hb
        rcases List.mem_append.mp ((merge_list_perm key ls (r :: rs)).mem_iff.mp hb) with hb | hb
        · exact (List.pairwise_cons.mp hl).1 b hb
        · rcases List.mem_cons.mp hb with rfl | hb
          · exact str_le_of_lt hlt
          · exact str_le_trans (str_le_of_lt hlt) ((List.pairwise_cons.mp hr).1 b hb)
      · rename_i hlt
        refine List.pairwise_cons.mpr ⟨?_, ihr (List.pairwise_cons.mp hr).2⟩
        intro b hb
        rcases List.mem_append.mp ((merge_list_perm key (l :: ls) rs).mem_iff.mp hb) with hb | hb
        · rcases List.mem_cons.mp hb with rfl | hb
          · exact str_le_of_not_lt hlt
          · exact str_le_trans (str_le_of_not_lt hlt) ((List.pairwise_cons.mp hl).1 b hb)
        · exact (List.pairwise_cons.mp hr).1 b hb

theorem merge_sort_list_perm (key : Nat → List Nat) (fuel : Nat) (as : List Nat) :
    (merge_sort_list key fuel as).Perm as := by
  induction fuel generalizing as with
  | zero => exact List.Perm.refl _
  | succ f ih =>
    rw [merge_sort_list]
    split
    · exact List.Perm.refl _
    · refine (merge_list_perm key _ _).trans ?_
      refine ((ih _).append (ih _)).trans ?_
      rw [List.take_append_drop]

theorem merge_sort_list_sorted (key : Nat → List Nat) (fuel : Nat) (as : List Nat)
    (hf : as.length ≤ fuel + 1) :
    (merge_sort_list key fuel as).Pairwise (fun a b => str_le (key a) (key b)) := by
  induction fuel generalizing as with
  | zero =>
    rw [merge_sort_list]
    match as, hf with
    | [], _ => exact List.Pairwise.nil
    | [a], _ => exact List.pairwise_singleton _ _
  | succ f ih =>
    rw [merge_sort_list]
    split
    · rename_i h1
      match as, h1 with
      | [], _ => exact List.Pairwise.nil
      | [a], _ => exact List.pairwise_singleton _ _
    · rename_i h1
      apply merge_list_sorted
      · apply ih; rw [List.length_take]; omega
      · apply ih; rw [List.length_drop]; omega

/-! ## Heaps that differ in `next` fields only -/

theorem Relink.refl (h : Heap) (S : List Nat) : Relink h h S :=
  ⟨rfl, fun _ _ => rfl, fun _ => rfl⟩

theorem Relink.trans {h1 h2 h3 : Heap} {S T U : List Nat} (r1 : Relink h1 h2 S)
    (r2 : Relink h2 h3 T) (hS : ∀ a ∈ S, a ∈ U) (hT : ∀ a ∈ T, a ∈ U) : Relink h1 h3 U :=
  ⟨r2.length_eq.trans r1.length_eq,
   fun a ha => (r2.frame a (fun m => ha (hT a m))).trans (r1.frame a (fun m => ha (hS a m))),
   fun a => (r2.value_eq a).trans (r1.value_eq a)⟩

theorem Relink.mono {h1 h2 : Heap} {S U : List Nat} (r : Relink h1 h2 S)
    (hS : ∀ a ∈ S, a ∈ U) : Relink h1 h2 U :=
  ⟨r.length_eq, fun a ha => r.frame a (fun m => ha (hS a m)), r.value_eq⟩

theorem Relink.val_eq {h1 h2 : Heap} {S : List Nat} (r : Relink h1 h2 S) : val h2 = val h1 := by
  funext a
  have := r.value_eq a
  unfold val
  cases h2a : load h2 a <;> cases h1a : load h1 a <;> simp_all

theorem Relink.stored_eq {h1 h2 : Heap} {S : List Nat} (r : Relink h1 h2 S) (a : Nat) :
    stored h2 a = stored h1 a := by
  have := r.value_eq a
  unfold stored
  cases h2a : load h2 a <;> cases h1a : load h1 a <;> simp_all

theorem Relink.hasValues {h1 h2 : Heap} {S as : List Nat} (r : Relink h1 h2 S)
    (hv : HasValues h1 as) : HasValues h2 as := by
  intro a ha
  rw [r.stored_eq]; exact hv a ha

theorem stored_iff {h : Heap} {a : Nat} :
    stored h a = true ↔
      ∃ n v, load h a = some n ∧ n.value = some v ∧ (v.length : Int) ≤ INT_MAX := by
  unfold stored
  cases hl : load h a with
  | none => simp
  | some n =>
    cases hv : n.value with
    | none => simp [hv]
    | some v => simp [hv]

theorem hasValues_get {h : Heap} {as : List Nat} (hv : HasValues h as) {a : Nat}
    (ha : a ∈ as) : ∃ n v, load h a = some n ∧ n.value = some v := by
  obtain ⟨n, v, h1, h2, -⟩ := stored_iff.mp (hv a ha)
  exact ⟨n, v, h1, h2⟩

theorem Relink.has_value_eq {h1 h2 : Heap} {S : List Nat} (r : Relink h1 h2 S) (a : Nat) :
    has_value h2 a = has_value h1 a := by
  have := r.value_eq a
  unfold has_value
  cases h2a : load h2 a <;> cases h1a : load h1 a <;> simp_all

theorem Relink.valued {h1 h2 : Heap} {S as : List Nat} (r : Relink h1 h2 S)
    (hv : Valued h1 as) : Valued h2 as := by
  intro a ha
  rw [r.has_value_eq]; exact hv a ha

theorem has_value_iff {h : Heap} {a : Nat} :
    has_value h a = true ↔ ∃ n v, load h a = some n ∧ n.value = some v := by
  unfold has_value
  cases hl : load h a with
  | none => simp
  | some n =>
    cases hv : n.value with
    | none => simp [hv]
    | some v => simp [hv]

theorem valued_get {h : Heap} {as : List Nat} (hv : Valued h as) {a : Nat}
    (ha : a ∈ as) : ∃ n v, load h a = some n ∧ n.value = some v :=
  has_value_iff.mp (hv a ha)

theorem valued_sub {h : Heap} {as bs : List Nat} (hv : Valued h as)
    (hs : ∀ a ∈ bs, a ∈ as) : Valued h bs :=
  fun a ha => hv a (hs a ha)

theorem hasValues_valued {h : Heap} {as : List Nat} (hv : HasValues h as) : Valued h as := by
  intro a ha
  obtain ⟨n, v, h1, h2⟩ := hasValues_get hv ha
  exact has_value_iff.mpr ⟨n, v, h1, h2⟩

theorem relink_store {h : Heap} {a : Nat} {n : list_ele_t} (hn : load h a = some n)
    (v : Option Nat) : Relink h (store h a { n with next := v }) [a] := by
  refine ⟨length_store _ _ _, ?_, ?_⟩
  · intro b hb
    exact load_store_ne _ (by simpa using hb)
  · intro b
    by_cases hb : b = a
    · subst hb
      rw [load_store_same _ (load_lt hn), hn]; rfl
    · rw [load_store_ne _ hb]

theorem set_next_eq {h : Heap} {a : Nat} {n : list_ele_t} (hn : load h a = some n)
    (v : Option Nat) : set_next h a v = some (store h a { n with next := v }) := by
  simp [set_next, hn]

/-! ## `merge` on the heap -/

theorem merge_spec (fuel : Nat) (h : Heap) (l r : Option Nat) (ls rs : List Nat)
    (hl : Chain h l ls) (hr : Chain h r rs) (hd : ∀ a ∈ ls, a ∉ rs)
    (hv : Valued h (ls ++ rs)) (hf : ls.length + rs.length ≤ fuel) :
    ∃ h2 p, merge fuel h l r = some (h2, p) ∧ Chain h2 p (merge_list (val h) ls rs) ∧
      Relink h h2 (ls ++ rs) := by
  induction fuel generalizing h l r ls rs with
  | zero =>
    have h1 : ls = [] := List.length_eq_zero.mp (by omega)
    have h2 : rs = [] := List.length_eq_zero.mp (by omega)
    subst h1 h2
    have hl2 : l = none := hl
    subst hl2
    exact ⟨h, r, by simp [merge], by simpa [merge_list] using hr, Relink.refl _ _⟩
  | succ f ih =>
    cases ls with
    | nil =>
      have hl2 : l = none := hl
      subst hl2
      exact ⟨h, r, by simp [merge], by simpa [merge_list] using hr, Relink.refl _ _⟩
    | cons a as =>
      obtain ⟨hla, na, hna, hlr⟩ := hl
      subst hla
      cases rs with
      | nil =>
        have hr2 : r = none := hr
        subst hr2
        exact ⟨h, some a, by simp [merge], by
          simpa [merge_list] using (show Chain h (some a) (a :: as) from ⟨rfl, na, hna, hlr⟩),
          Relink.refl _ _⟩
      | cons b bs =>
        obtain ⟨hrb, nb, hnb, hrr⟩ := hr
        subst hrb
        obtain ⟨na2, va, hna2, hva⟩ := valued_get hv (a := a) (by simp)
        obtain ⟨nb2, vb, hnb2, hvb⟩ := valued_get hv (a := b) (by simp)
        rw [hna] at hna2; cases hna2
        rw [hnb] at hnb2; cases hnb2
        have hnda := chain_nodup (show Chain h (some a) (a :: as) from ⟨rfl, na, hna, hlr⟩)
        have hndb := chain_nodup (show Chain h (some b) (b :: bs) from ⟨rfl, nb, hnb, hrr⟩)
        have hvala : val h a = va := by simp [val, hna, hva]
        have hvalb : val h b = vb := by simp [val, hnb, hvb]
        by_cases hlt : strcmp va vb < 0
        · obtain ⟨h1, p1, hm, hc1, hr1⟩ := ih h na.next (some b) as (b :: bs) hlr
            ⟨rfl, nb, hnb, hrr⟩ (fun x hx => hd x (List.mem_cons_of_mem _ hx))
            (fun x hx => hv x (by
              rcases List.mem_append.mp hx with hx | hx
              · exact List.mem_append.mpr (Or.inl (List.mem_cons_of_mem _ hx))
              · exact List.mem_append.mpr (Or.inr hx)))
            (by simp at hf ⊢; omega)
          have hanot : a ∉ as ++ b :: bs := by
            intro hmem
            rcases List.mem_append.mp hmem with hx | hx
            · exact (List.nodup_cons.mp hnda).1 hx
            · exact hd a (List.mem_cons_self _ _) hx
          have h1a : load h1 a = some na := by rw [hr1.frame a hanot]; exact hna
          refine ⟨store h1 a { na with next := p1 }, some a, ?_, ?_, ?_⟩
          · rw [merge]
            simp [hna, hnb, hva, hvb, hlt, hm, set_next_eq h1a]
          · rw [merge_list, hvala, hvalb, if_pos hlt]
            refine ⟨rfl, _, load_store_same _ (load_lt h1a), ?_⟩
            refine seg_frame ?_ hc1
            intro x hx
            apply load_store_ne
            intro hxa
            subst hxa
            exact hanot ((merge_list_perm _ _ _).mem_iff.mp hx)
          · refine Relink.trans hr1 (relink_store h1a p1) ?_ ?_
            · intro x hx
              rcases List.mem_append.mp hx with hx | hx
              · exact List.mem_append.mpr (Or.inl (List.mem_cons_of_mem _ hx))
              · exact List.mem_append.mpr (Or.inr hx)
            · intro x hx
              simp at hx
              simp [hx]
        · obtain ⟨h1, p1, hm, hc1, hr1⟩ := ih h (some a) nb.next (a :: as) bs
            ⟨rfl, na, hna, hlr⟩ hrr (fun x hx hxb => hd x hx (List.mem_cons_of_mem _ hxb))
            (fun x hx => hv x (by
              rcases List.mem_append.mp hx with hx | hx
              · exact List.mem_append.mpr (Or.inl hx)
              · exact List.mem_append.mpr (Or.inr (List.mem_cons_of_mem _ hx))))
            (by simp at hf ⊢; omega)
          have hbnot : b ∉ (a :: as) ++ bs := by
            intro hmem
            rcases List.mem_append.mp hmem with hx | hx
            · exact hd b hx (List.mem_cons_self _ _)
            · exact (List.nodup_cons.mp hndb).1 hx
          have h1b : load h1 b = some nb := by rw [hr1.frame b hbnot]; exact hnb
          refine ⟨store h1 b { nb with next := p1 }, some b, ?_, ?_, ?_⟩
          · rw [merge]
            simp [hna, hnb, hva, hvb, hlt, hm, set_next_eq h1b]
          · rw [merge_list, hvala, hvalb, if_neg hlt]
            refine ⟨rfl, _, load_store_same _ (load_lt h1b), ?_⟩
            refine seg_frame ?_ hc1
            intro x hx
            apply load_store_ne
            intro hxb
            subst hxb
            exact hbnot ((merge_list_perm _ _ _).mem_iff.mp hx)
          · refine Relink.trans hr1 (relink_store h1b p1) ?_ ?_
            · intro x hx
              rcases List.mem_append.mp hx with hx | hx
              · exact List.mem_append.mpr (Or.inl hx)
              · exact List.mem_append.mpr (Or.inr (List.mem_cons_of_mem _ hx))
            · intro x hx
              simp at hx
              simp [hx]

/-! ## `split` on the heap -/

theorem advance_seg {h : Heap} {xs : List Nat} {p m : Option Nat} (hs : Seg h p xs m) :
    advance xs.length h p = some m := by
  induction xs generalizing p with
  | nil => rw [seg_nil] at hs; simp [advance, hs]
  | cons a xs ih =>
    obtain ⟨hp, n, hn, hr⟩ := hs
    subst hp
    simp [advance, hn, ih hr]

theorem left_size_eq (n : Nat) :
    Int.tdiv (n : Int) 2 + Int.tmod (n : Int) 2 = (((n + 1) / 2 : Nat) : Int) := by
  rw [Int.tdiv_eq_ediv (by omega) (by omega), Int.tmod_eq_emod (by omega) (by omega)]
  omega

theorem right_size_eq (n : Nat) : Int.tdiv (n : Int) 2 = ((n - (n + 1) / 2 : Nat) : Int) := by
  rw [Int.tdiv_eq_ediv (by omega) (by omega)]
  omega

theorem split_spec (h : Heap) (p : Option Nat) (as : List Nat) (hc : Chain h p as)
    (hpos : 1 ≤ as.length) :
    ∃ h2 r, split h p (as.length : Int) =
        some (h2, p, r, (((as.length + 1) / 2 : Nat) : Int),
          ((as.length - (as.length + 1) / 2 : Nat) : Int)) ∧
      Chain h2 p (as.take ((as.length + 1) / 2)) ∧
      Chain h2 r (as.drop ((as.length + 1) / 2)) ∧
      Seg h p (as.take ((as.length + 1) / 2)) r ∧
      Relink h h2 (as.take ((as.length + 1) / 2)) := by
  have hnd := chain_nodup hc
  obtain ⟨c, hcdef⟩ : ∃ c, c = (as.length + 1) / 2 := ⟨_, rfl⟩
  have hc1 : 1 ≤ c := by omega
  have hc2 : c ≤ as.length := by omega
  -- the element the walk stops at
  have hsplit : as = as.take (c - 1) ++ as.drop (c - 1) := (List.take_append_drop _ _).symm
  obtain ⟨t, ys, hty⟩ : ∃ t ys, as.drop (c - 1) = t :: ys := by
    cases hdr : as.drop (c - 1) with
    | nil =>
      have := congrArg List.length hdr
      rw [List.length_drop] at this
      simp at this; omega
    | cons t ys => exact ⟨t, ys, rfl⟩
  have hys : ys = as.drop c := by
    have := congrArg List.tail hty
    rw [List.tail_drop] at this
    simp only [List.tail_cons] at this
    rw [← this]
    congr 1; omega
  have htake : as.take c = as.take (c - 1) ++ [t] := by
    have h3 : c = (c - 1) + 1 := by omega
    rw [h3, List.take_succ]
    congr 1
    have h4 : as[c - 1]? = some t := by
      have := List.getElem?_drop as (c - 1) 0
      rw [hty] at this
      simpa using this.symm
    simp [h4]
  rw [hty] at hsplit
  have hc' := hc
  unfold Chain at hc'
  rw [hsplit] at hc' hnd
  obtain ⟨m, hs1, hs2⟩ := seg_append.mp hc'
  obtain ⟨hm, n, hn, hs3⟩ := hs2
  subst hm
  have hadv : advance (c - 1) h p = some (some t) := by
    have := advance_seg hs1
    rw [List.length_take] at this
    rwa [Nat.min_eq_left (by omega)] at this
  have htx : t ∉ as.take (c - 1) := by
    intro hx
    have := (List.nodup_append.mp hnd).2.2
    exact this hx (List.mem_cons_self _ _)
  have hty2 : t ∉ ys := (List.nodup_cons.mp (List.nodup_append.mp hnd).2.1).1
  refine ⟨store h t { n with next := none }, n.next, ?_, ?_, ?_, ?_, ?_⟩
  · unfold split
    simp only [left_size_eq]
    simp only [right_size_eq]
    rw [← hcdef]
    have h5 : (((c : Nat) : Int) - 1).toNat = c - 1 := by omega
    rw [h5, hadv]
    simp [hn]
  · rw [← hcdef, htake]
    refine seg_append.mpr ⟨some t, ?_, ?_⟩
    · exact seg_frame (fun x hx => load_store_ne _ (fun e => htx (e ▸ hx))) hs1
    · exact ⟨rfl, _, load_store_same _ (load_lt hn), rfl⟩
  · rw [← hcdef, ← hys]
    exact seg_frame (fun x hx => load_store_ne _ (fun e => hty2 (e ▸ hx))) hs3
  · rw [← hcdef, htake]
    exact seg_append.mpr ⟨some t, hs1, ⟨rfl, n, hn, rfl⟩⟩
  · rw [← hcdef, htake]
    exact (relink_store hn none).mono (fun x hx => by simp at hx; simp [hx])

/-! ## `merge_sort` on the heap -/

theorem hasValues_sub {h : Heap} {as bs : List Nat} (hv : HasValues h as)
    (hs : ∀ a ∈ bs, a ∈ as) : HasValues h bs :=
  fun a ha => hv a (hs a ha)

theorem merge_sort_spec (fuel : Nat) (h : Heap) (p : Option Nat) (as : List Nat)
    (hc : Chain h p as) (hv : Valued h as) (hf : as.length ≤ fuel) :
    ∃ h2 p2, merge_sort fuel h p (as.length : Int) = some (h2, p2) ∧
      Chain h2 p2 (merge_sort_list (val h) fuel as) ∧ Relink h h2 as := by
  induction fuel generalizing h p as with
  | zero =>
    have h1 : as = [] := List.length_eq_zero.mp (by omega)
    subst h1
    have hp : p = none := hc
    subst hp
    exact ⟨h, none, by simp [merge_sort], by simpa [merge_sort_list] using hc, Relink.refl _ _⟩
  | succ f ih =>
    match as, hc, hv, hf with
    | [], hc, _, _ =>
      have hp : p = none := hc
      subst hp
      exact ⟨h, none, by simp [merge_sort], by simpa [merge_sort_list] using hc, Relink.refl _ _⟩
    | [a], hc, _, _ =>
      obtain ⟨hp, na, hna, hnext⟩ := hc
      subst hp
      have hnext2 : na.next = none := hnext
      refine ⟨h, some a, by simp [merge_sort, hna, hnext2], ?_, Relink.refl _ _⟩
      simpa [merge_sort_list] using (show Chain h (some a) [a] from ⟨rfl, na, hna, hnext⟩)
    | a :: b :: bs, hc, hv, hf =>
      have hnd := chain_nodup hc
      have hlen := chain_length_le hc
      obtain ⟨h1, r, hsp, hcl, hcr, -, hr1⟩ := split_spec h p (a :: b :: bs) hc (by simp)
      obtain ⟨hp, na, hna, hpb, nb, hnb, hrest⟩ := hc
      subst hp
      have hne : ¬ na.next = none := by rw [hpb]; simp
      generalize hasdef : a :: b :: bs = as at *
      have hn2 : 2 ≤ as.length := by rw [← hasdef]; simp
      obtain ⟨c, hcdef⟩ : ∃ c, c = (as.length + 1) / 2 := ⟨_, rfl⟩
      rw [← hcdef] at hsp hcl hcr hr1
      have htd : as.take c ++ as.drop c = as := List.take_append_drop _ _
      have hndtd : (as.take c ++ as.drop c).Nodup := by rw [htd]; exact hnd
      have hdisj := (List.nodup_append.mp hndtd).2.2
      have hlt : (as.take c).length = c := by rw [List.length_take]; omega
      have hld : (as.drop c).length = as.length - c := by rw [List.length_drop]
      -- left half
      obtain ⟨h2, l2, hms1, hcl2, hr2⟩ := ih h1 (some a) (as.take c) hcl
        (hr1.valued (valued_sub hv (fun x hx => List.mem_of_mem_take hx))) (by omega)
      rw [hlt] at hms1
      -- right half
      have hcr2 : Chain h2 r (as.drop c) :=
        seg_frame (fun x hx => hr2.frame x (fun hx2 => hdisj hx2 hx)) hcr
      have hr12 : Relink h h2 as := hr1.trans hr2 (fun x hx => List.mem_of_mem_take hx)
        (fun x hx => List.mem_of_mem_take hx)
      obtain ⟨h3, r3, hms2, hcr3, hr3⟩ := ih h2 r (as.drop c) hcr2
        (hr12.valued (valued_sub hv (fun x hx => List.mem_of_mem_drop hx))) (by omega)
      rw [hld] at hms2
      have hr13 : Relink h h3 as := hr12.trans hr3 (fun x hx => hx)
        (fun x hx => List.mem_of_mem_drop hx)
      have hv1 : val h1 = val h := hr1.val_eq
      have hv2 : val h2 = val h := hr12.val_eq
      have hv3 : val h3 = val h := hr13.val_eq
      rw [hv1] at hcl2
      rw [hv2] at hcr3
      have hpl := merge_sort_list_perm (val h) f (as.take c)
      have hpr := merge_sort_list_perm (val h) f (as.drop c)
      have hcl3 : Chain h3 l2 (merge_sort_list (val h) f (as.take c)) :=
        seg_frame (fun x hx => hr3.frame x
          (fun hx2 => hdisj (hpl.mem_iff.mp hx) hx2)) hcl2
      obtain ⟨h4, p4, hmg, hc4, hr4⟩ := merge_spec h3.length h3 l2 r3 _ _ hcl3 hcr3
        (fun x hx hx2 => hdisj (hpl.mem_iff.mp hx) (hpr.mem_iff.mp hx2))
        (hr13.valued (valued_sub hv (fun x hx => by
          rw [← htd]
          rcases List.mem_append.mp hx with hx | hx
          · exact List.mem_append.mpr (Or.inl (hpl.mem_iff.mp hx))
          · exact List.mem_append.mpr (Or.inr (hpr.mem_iff.mp hx)))))
        (by rw [hpl.length_eq, hpr.length_eq, hlt, hld, hr13.length_eq]; omega)
      rw [hv3] at hc4
      refine ⟨h4, p4, ?_, ?_, ?_⟩
      · rw [merge_sort]
        simp [hna, hne, hsp, hms1, hms2, hmg]
      · rw [merge_sort_list, if_neg (by omega), ← hcdef]
        exact hc4
      · refine hr13.trans hr4 (fun x hx => hx) (fun x hx => ?_)
        rw [← htd]
        rcases List.mem_append.mp hx with hx | hx
        · exact List.mem_append.mpr (Or.inl (hpl.mem_iff.mp hx))
        · exact List.mem_append.mpr (Or.inr (hpr.mem_iff.mp hx))

/-! ## `q_sort` -/

theorem cstr_idem (s : List Nat) : cstr (cstr s) = cstr s := by
  unfold cstr
  induction s with
  | nil => rfl
  | cons x xs ih =>
    by_cases hx : x = 0
    · simp [List.takeWhile_cons, hx]
    · simp [List.takeWhile_cons, hx, ih]

theorem strcmp_cstr (x y : List Nat) : strcmp (cstr x) (cstr y) = strcmp x y := by
  unfold strcmp; rw [cstr_idem, cstr_idem]

theorem last_node_spec (fuel : Nat) (h : Heap) (xs : List Nat) (t p : Nat)
    (hc : Chain h (some p) (xs ++ [t])) (hf : xs.length + 1 ≤ fuel) :
    last_node fuel h p = some t := by
  induction xs generalizing p fuel with
  | nil =>
    obtain ⟨hp, n, hn, hnext⟩ := hc
    cases hp
    have hnext2 : n.next = none := hnext
    obtain ⟨f, rfl⟩ : ∃ f, fuel = f + 1 := ⟨fuel - 1, by simp at hf; omega⟩
    simp [last_node, hn, hnext2]
  | cons a xs ih =>
    obtain ⟨hp, n, hn, hrest⟩ := hc
    cases hp
    obtain ⟨f, rfl⟩ : ∃ f, fuel = f + 1 := ⟨fuel - 1, by simp at hf; omega⟩
    cases hxs : xs ++ [t] with
    | nil => simp at hxs
    | cons b bs =>
      change Seg h n.next (xs ++ [t]) none at hrest
      rw [hxs] at hrest
      have hb : n.next = some b := hrest.1
      have hrest2 : Chain h (some b) (xs ++ [t]) := by rw [hxs, ← hb]; exact hrest
      have := ih f b hrest2 (by simp at hf; omega)
      simp [last_node, hn, hb, this]

theorem sorted_chain_perm (h : Heap) (as : List Nat) : (sorted_chain h as).Perm as :=
  merge_sort_list_perm _ _ _

theorem q_sort_spec (st : State) (q : queue_t) (as : List Nat) (hq : st.q = some q)
    (hc : Chain st.heap q.head as) (hv : Valued st.heap as)
    (hsize : q.size = (as.length : Int)) :
    ∃ h2 hd tl, q_sort st = some { heap := h2, q := some { head := hd, tail := tl, size := q.size } } ∧
      Chain h2 hd (sorted_chain st.heap as) ∧ Relink st.heap h2 as ∧
      (2 ≤ as.length → ∃ xs t, sorted_chain st.heap as = xs ++ [t] ∧ tl = some t) ∧
      (as.length ≤ 1 → h2 = st.heap ∧ hd = q.head ∧ tl = q.tail) := by
  obtain ⟨heap, q0⟩ := st
  simp only at hq hc hv
  subst hq
  obtain ⟨head, tail, size⟩ := q
  simp only at hc hsize
  match as, hc, hv, hsize with
  | [], hc, _, _ =>
    have hp : head = none := hc
    subst hp
    refine ⟨heap, none, tail, by simp [q_sort], ?_, Relink.refl _ _, by simp, by simp⟩
    unfold sorted_chain
    cases heap.length <;> simpa [merge_sort_list] using hc
  | [a], hc, _, _ =>
    obtain ⟨hp, na, hna, hnext⟩ := hc
    subst hp
    have hnext2 : na.next = none := hnext
    refine ⟨heap, some a, tail, by simp [q_sort, hna, hnext2], ?_, Relink.refl _ _, by simp, by simp⟩
    unfold sorted_chain
    have : Chain heap (some a) [a] := ⟨rfl, na, hna, hnext⟩
    cases heap.length <;> simpa [merge_sort_list] using this
  | a :: b :: bs, hc, hv, hsize =>
    have hlen := chain_length_le hc
    obtain ⟨h2, p2, hms, hc2, hr2⟩ := merge_sort_spec heap.length heap head _ hc hv hlen
    obtain ⟨hp, na, hna, hpb, -⟩ := hc
    subst hp
    have hne : ¬ na.next = none := by rw [hpb]; simp
    generalize hasdef : a :: b :: bs = as at *
    have hperm := merge_sort_list_perm (val heap) heap.length as
    have hn2 : 2 ≤ as.length := by rw [← hasdef]; simp
    have hne2 : merge_sort_list (val heap) heap.length as ≠ [] := by
      intro he
      have := hperm.length_eq
      rw [he] at this
      simp at this; omega
    obtain ⟨xs, t, hxt⟩ : ∃ xs t, merge_sort_list (val heap) heap.length as = xs ++ [t] :=
      ⟨_, _, (List.dropLast_append_getLast hne2).symm⟩
    rw [hxt] at hc2
    obtain ⟨p, rfl⟩ : ∃ p, p2 = some p := by
      cases xs with
      | nil => exact ⟨t, hc2.1⟩
      | cons x xs => exact ⟨x, hc2.1⟩
    have hlast := last_node_spec h2.length h2 xs t p hc2 (by
      have h3 := chain_length_le hc2
      simpa using h3)
    refine ⟨h2, some p, some t, ?_, ?_, hr2, fun _ => ⟨xs, t, hxt, rfl⟩, fun h1 => by omega⟩
    · rw [← hsize] at hms
      simp [q_sort, hna, hne, hms, hlast]
    · unfold sorted_chain
      rw [hxt]; exact hc2

theorem sorted_chain_sorted (h : Heap) (p : Option Nat) (as : List Nat) (hc : Chain h p as) :
    (sorted_chain h as).Pairwise (fun a b => str_le (val h a) (val h b)) :=
  merge_sort_list_sorted _ _ _ (by have := chain_length_le hc; omega)

/-! ## Claims on `q_sort` -/

/-- C1: for every present queue whose chain is made of live elements holding
strings and whose `size` field equals the length of the chain, `q_sort`
returns, and the values read from the new head to the end of the chain are
non-decreasing under `strcmp`: every value is `<=` the one that follows it
(and, the order being transitive, every later one). -/
theorem q_sort_nondecreasing (st : State) (q : queue_t) (as : List Nat)
    (hq : st.q = some q) (hc : Chain st.heap q.head as) (hv : HasValues st.heap as)
    (hsize : q.size = (as.length : Int)) :
    ∃ st2 q2 bs, q_sort st = some st2 ∧ st2.q = some q2 ∧ Chain st2.heap q2.head bs ∧
      (values st2.heap bs).Chain' (fun x y => strcmp x y ≤ 0) ∧
      (values st2.heap bs).Pairwise (fun x y => strcmp x y ≤ 0) := by
  obtain ⟨h2, hd, tl, hs, hc2, hr, -, -⟩ := q_sort_spec st q as hq hc (hasValues_valued hv) hsize
  have hp : (values h2 (sorted_chain st.heap as)).Pairwise (fun x y => strcmp x y ≤ 0) := by
    unfold values
    rw [List.pairwise_map, hr.val_eq]
    refine (sorted_chain_sorted st.heap q.head as hc).imp ?_
    intro a b hab
    rw [strcmp_cstr]; exact hab
  exact ⟨_, _, _, hs, rfl, hc2, hp.chain', hp⟩

theorem q_sort_nondecreasing_witness :
    q_sort ex_bac =
        some
          { heap := [some { value := some [98, 0], next := some 2 },
                     some { value := some [97, 0], next := some 0 },
                     some { value := some [99, 0], next := none }],
            q := some { head := some 1, tail := some 2, size := 3 } } ∧
      ∃ st2 q2 bs, q_sort ex_bac = some st2 ∧ st2.q = some q2 ∧
        Chain st2.heap q2.head bs ∧
        (values st2.heap bs).Chain' (fun x y => strcmp x y ≤ 0) ∧
        (values st2.heap bs).Pairwise (fun x y => strcmp x y ≤ 0) :=
  ⟨by decide, q_sort_nondecreasing ex_bac { head := some 0, tail := some 2, size := 3 }
    [0, 1, 2] rfl (by decide) (by decide) rfl⟩

/-- C2: for every present queue whose chain is made of live elements holding
strings and whose `size` field equals the length of the chain, `q_sort`
returns a queue whose chain is a permutation of the chain before; no element
is created or destroyed, no value buffer changes, the values read along the
chain are a permutation of the values before, and `size` is unchanged. -/
theorem q_sort_perm (st : State) (q : queue_t) (as : List Nat)
    (hq : st.q = some q) (hc : Chain st.heap q.head as) (hv : HasValues st.heap as)
    (hsize : q.size = (as.length : Int)) :
    ∃ st2 q2 bs, q_sort st = some st2 ∧ st2.q = some q2 ∧ Chain st2.heap q2.head bs ∧
      bs.Perm as ∧ (values st2.heap bs).Perm (values st.heap as) ∧
      Relink st.heap st2.heap as ∧ q2.size = q.size := by
  obtain ⟨h2, hd, tl, hs, hc2, hr, -, -⟩ := q_sort_spec st q as hq hc (hasValues_valued hv) hsize
  refine ⟨_, _, _, hs, rfl, hc2, sorted_chain_perm _ _, ?_, hr, rfl⟩
  unfold values
  rw [hr.val_eq]
  exact (sorted_chain_perm _ _).map _

theorem q_sort_perm_witness :
    values ex_bac.heap [0, 1, 2] = [[98], [97], [99]] ∧
      ∃ st2 q2 bs, q_sort ex_bac = some st2 ∧ st2.q = some q2 ∧
        Chain st2.heap q2.head bs ∧ bs.Perm [0, 1, 2] ∧
        (values st2.heap bs).Perm (values ex_bac.heap [0, 1, 2]) ∧
        Relink ex_bac.heap st2.heap [0, 1, 2] ∧ q2.size = 3 :=
  ⟨by decide, q_sort_perm ex_bac { head := some 0, tail := some 2, size := 3 }
    [0, 1, 2] rfl (by decide) (by decide) rfl⟩

/-! ## Claims on `split`, `merge` and `merge_sort` -/

theorem values_sorted_iff (h : Heap) (as : List Nat) :
    (values h as).Pairwise (fun x y => strcmp x y ≤ 0) ↔
      as.Pairwise (fun a b => str_le (val h a) (val h b)) := by
  unfold values
  rw [List.pairwise_map]
  constructor <;> intro hp <;> refine hp.imp ?_ <;> intro a b hab
  · rw [strcmp_cstr] at hab; exact hab
  · rw [strcmp_cstr]; exact hab

theorem chain'_strcmp_iff (l : List (List Nat)) :
    l.Chain' (fun x y => strcmp x y ≤ 0) ↔ l.Pairwise (fun x y => strcmp x y ≤ 0) := by
  haveI : IsTrans (List Nat) (fun x y => strcmp x y ≤ 0) :=
    ⟨fun _ _ _ h1 h2 => str_le_trans h1 h2⟩
  exact List.chain'_iff_pairwise

/-- C18: for every chain of `n >= 1` elements, `split(head, n)` returns; the
left result is the chain of the first `(n + 1) / 2` elements (ending in
`NULL`: the link after its last element is cut), the right result is the chain
of the remaining `n / 2` elements, both in the original order, so that left
followed by right is the original sequence; the reported `left_size` and
`right_size` are the lengths of the two chains; only `next` fields change. -/
theorem split_correct (h : Heap) (p : Option Nat) (as : List Nat) (hc : Chain h p as)
    (hpos : 1 ≤ as.length) :
    ∃ h2 l r ls rs left_size right_size,
      split h p (as.length : Int) = some (h2, l, r, left_size, right_size) ∧
      l = p ∧ Chain h2 l ls ∧ Chain h2 r rs ∧ ls ++ rs = as ∧
      ls.length = (as.length + 1) / 2 ∧ rs.length = as.length / 2 ∧
      left_size = (ls.length : Int) ∧ right_size = (rs.length : Int) ∧
      Relink h h2 as := by
  obtain ⟨h2, r, hsp, hl, hr, -, hrl⟩ := split_spec h p as hc hpos
  refine ⟨h2, p, r, _, _, _, _, hsp, rfl, hl, hr, List.take_append_drop _ _, ?_, ?_, ?_, ?_,
    hrl.mono (fun x hx => List.mem_of_mem_take hx)⟩
  · rw [List.length_take]; omega
  · rw [List.length_drop]; omega
  · rw [List.length_take]; congr 1; omega
  · rw [List.length_drop]

theorem split_correct_witness :
    ∃ h2 l r ls rs left_size right_size,
      split ex_abc.heap (some 0) (([0, 1, 2] : List Nat).length : Int) =
        some (h2, l, r, left_size, right_size) ∧
      l = some 0 ∧ Chain h2 l ls ∧ Chain h2 r rs ∧ ls ++ rs = [0, 1, 2] ∧
      ls.length = (([0, 1, 2] : List Nat).length + 1) / 2 ∧
      rs.length = ([0, 1, 2] : List Nat).length / 2 ∧
      left_size = (ls.length : Int) ∧ right_size = (rs.length : Int) ∧
      Relink ex_abc.heap h2 [0, 1, 2] :=
  split_correct ex_abc.heap (some 0) [0, 1, 2] (by decide) (by decide)

/-- C19: for two disjoint chains of elements holding strings, each
non-decreasing under `strcmp`, `merge(left, right)` returns one chain that is
non-decreasing and is a permutation of the elements of `left` followed by
those of `right`; only `next` fields of these elements change (nothing is
allocated or dropped, no value buffer is touched).  With one argument `NULL`
the other argument is returned and the heap is unchanged. -/
theorem merge_correct (fuel : Nat) (h : Heap) (l r : Option Nat) (ls rs : List Nat)
    (hl : Chain h l ls) (hr : Chain h r rs) (hd : ∀ a ∈ ls, a ∉ rs)
    (hv : HasValues h (ls ++ rs)) (hf : ls.length + rs.length ≤ fuel)
    (hsl : (values h ls).Chain' (fun x y => strcmp x y ≤ 0))
    (hsr : (values h rs).Chain' (fun x y => strcmp x y ≤ 0)) :
    (∃ h2 p out, merge fuel h l r = some (h2, p) ∧ Chain h2 p out ∧ out.Perm (ls ++ rs) ∧
      (values h2 out).Chain' (fun x y => strcmp x y ≤ 0) ∧
      (values h2 out).Perm (values h ls ++ values h rs) ∧ Relink h h2 (ls ++ rs)) ∧
    merge fuel h none r = some (h, r) ∧ merge fuel h l none = some (h, l) := by
  refine ⟨?_, ?_, ?_⟩
  · obtain ⟨h2, p, hm, hc, hrl⟩ := merge_spec fuel h l r ls rs hl hr hd (hasValues_valued hv) hf
    refine ⟨h2, p, _, hm, hc, merge_list_perm _ _ _, ?_, ?_, hrl⟩
    · rw [chain'_strcmp_iff, values_sorted_iff, hrl.val_eq]
      apply merge_list_sorted
      · rw [← values_sorted_iff, ← chain'_strcmp_iff]; exact hsl
      · rw [← values_sorted_iff, ← chain'_strcmp_iff]; exact hsr
    · unfold values
      rw [hrl.val_eq, ← List.map_append]
      exact (merge_list_perm _ _ _).map _
  · cases fuel <;> simp [merge]
  · cases l with
    | none => cases fuel <;> simp [merge]
    | some a => cases fuel <;> simp [merge]

theorem merge_correct_witness :
    (∃ h2 p out, merge 3 ex_two_chains (some 1) (some 0) = some (h2, p) ∧ Chain h2 p out ∧
      out.Perm ([1, 2] ++ [0]) ∧
      (values h2 out).Chain' (fun x y => strcmp x y ≤ 0) ∧
      (values h2 out).Perm (values ex_two_chains [1, 2] ++ values ex_two_chains [0]) ∧
      Relink ex_two_chains h2 ([1, 2] ++ [0])) ∧
    merge 3 ex_two_chains none (some 0) = some (ex_two_chains, some 0) ∧
    merge 3 ex_two_chains (some 1) none = some (ex_two_chains, some 1) :=
  merge_correct 3 ex_two_chains (some 1) (some 0) [1, 2] [0] (by decide) (by decide)
    (by decide) (by decide) (by decide) ((chain'_strcmp_iff _).mpr (by decide))
    ((chain'_strcmp_iff _).mpr (by decide))

theorem merge_sort_mono (fuel : Nat) (h : Heap) (p : Option Nat) (size : Int)
    (r : Heap × Option Nat) (hm : merge_sort fuel h p size = some r) :
    merge_sort (fuel + 1) h p size = some r := by
  induction fuel generalizing h p size r with
  | zero =>
    cases p with
    | none => simpa [merge_sort] using hm
    | some a => simp [merge_sort] at hm
  | succ f ih =>
    cases p with
    | none => simpa [merge_sort] using hm
    | some a =>
      rw [merge_sort] at hm ⊢
      cases hl : load h a with
      | none => rw [hl] at hm; simp at hm
      | some n =>
        rw [hl] at hm
        simp only [Option.some_bind] at hm ⊢
        by_cases hn : n.next = none
        · rw [if_pos hn] at hm ⊢; exact hm
        · rw [if_neg hn] at hm ⊢
          cases hs : split h (some a) size with
          | none => rw [hs] at hm; simp at hm
          | some sp =>
            rw [hs] at hm
            simp only [Option.some_bind] at hm ⊢
            cases h1 : merge_sort f sp.1 sp.2.1 sp.2.2.2.1 with
            | none => simp [h1] at hm
            | some l =>
              rw [h1] at hm
              rw [ih _ _ _ _ h1]
              simp only [Option.some_bind] at hm ⊢
              cases h2 : merge_sort f l.1 sp.2.2.1 sp.2.2.2.2 with
              | none => simp [h2] at hm
              | some r2 =>
                rw [h2] at hm
                rw [ih _ _ _ _ h2]
                exact hm

theorem merge_sort_mono_le (fuel fuel2 : Nat) (h : Heap) (p : Option Nat) (size : Int)
    (r : Heap × Option Nat) (hm : merge_sort fuel h p size = some r) (hle : fuel ≤ fuel2) :
    merge_sort fuel2 h p size = some r := by
  induction hle with
  | refl => exact hm
  | step _ ih => exact merge_sort_mono _ _ _ _ _ ih

/-- C20: for every chain (ending in `NULL`) of elements holding strings, with
`size` equal to the length of the chain, `merge_sort` terminates: with any
recursion bound at least the length of the chain it returns a result, and the
result does not depend on the bound.  When the chain has at least 2 elements,
the walk of `split` over `(size + 1) / 2 - 1` links ends on a live element
(never on `NULL`), both halves are strictly shorter than the chain, and the
sizes handed to the recursive calls are the lengths of the halves. -/
theorem merge_sort_total (h : Heap) (p : Option Nat) (as : List Nat) (hc : Chain h p as)
    (hv : HasValues h as) :
    (∃ res, ∀ fuel, as.length ≤ fuel → merge_sort fuel h p (as.length : Int) = some res) ∧
    (2 ≤ as.length →
      ∃ h2 l r ls rs t n,
        advance ((as.length + 1) / 2 - 1) h p = some (some t) ∧ load h t = some n ∧
        split h p (as.length : Int) = some (h2, l, r, (ls.length : Int), (rs.length : Int)) ∧
        Chain h2 l ls ∧ Chain h2 r rs ∧ ls.length < as.length ∧ rs.length < as.length) := by
  constructor
  · obtain ⟨h2, p2, hm, -, -⟩ := merge_sort_spec as.length h p as hc (hasValues_valued hv) (le_refl _)
    exact ⟨(h2, p2), fun fuel hf => merge_sort_mono_le _ _ _ _ _ _ hm hf⟩
  · intro h2le
    obtain ⟨h2, r, hsp, hl, hr, hseg, -⟩ := split_spec h p as hc (by omega)
    have hlt : (as.take ((as.length + 1) / 2)).length = (as.length + 1) / 2 := by
      rw [List.length_take]; omega
    have hld : (as.drop ((as.length + 1) / 2)).length = as.length - (as.length + 1) / 2 := by
      rw [List.length_drop]
    have hne : as.take ((as.length + 1) / 2) ≠ [] := by
      intro he
      rw [he] at hlt
      simp at hlt
      omega
    obtain ⟨xs, t, hxt⟩ : ∃ xs t, as.take ((as.length + 1) / 2) = xs ++ [t] :=
      ⟨_, _, (List.dropLast_append_getLast hne).symm⟩
    rw [hxt] at hseg hlt
    obtain ⟨m, hs1, hs2⟩ := seg_append.mp hseg
    obtain ⟨hm, n, hn, -⟩ := hs2
    subst hm
    have hadv := advance_seg hs1
    have hxl : xs.length = (as.length + 1) / 2 - 1 := by
      simp at hlt; omega
    rw [hxl] at hadv
    refine ⟨h2, p, r, _, _, t, n, hadv, hn, ?_, hl, hr, ?_, ?_⟩
    · rw [hsp, hxt, hlt, hld]
    · rw [hxt, hlt]; omega
    · rw [hld]; omega

theorem merge_sort_total_witness :
    (∃ res, ∀ fuel, ([0, 1, 2] : List Nat).length ≤ fuel →
      merge_sort fuel ex_bac.heap (some 0) (([0, 1, 2] : List Nat).length : Int) = some res) ∧
    (2 ≤ ([0, 1, 2] : List Nat).length →
      ∃ h2 l r ls rs t n,
        advance ((([0, 1, 2] : List Nat).length + 1) / 2 - 1) ex_bac.heap (some 0) =
          some (some t) ∧
        load ex_bac.heap t = some n ∧
        split ex_bac.heap (some 0) (([0, 1, 2] : List Nat).length : Int) =
          some (h2, l, r, (ls.length : Int), (rs.length : Int)) ∧
        Chain h2 l ls ∧ Chain h2 r rs ∧ ls.length < ([0, 1, 2] : List Nat).length ∧
        rs.length < ([0, 1, 2] : List Nat).length) :=
  merge_sort_total ex_bac.heap (some 0) [0, 1, 2] (by decide) (by decide)

/-- C17: for every present queue whose chain has at least 2 elements (holding
strings) and whose `size` equals the length of the chain, whatever `tail`
was, `q_sort` returns with `head` the first element of the sorted chain and
`tail` its last element: `tail` is reached from `head` over `size - 1` links
and its `next` is `NULL`. -/
theorem q_sort_head_tail (st : State) (q : queue_t) (as : List Nat) (hq : st.q = some q)
    (hc : Chain st.heap q.head as) (hv : HasValues st.heap as)
    (hsize : q.size = (as.length : Int)) (h2le : 2 ≤ as.length) :
    ∃ st2 q2 xs t n, q_sort st = some st2 ∧ st2.q = some q2 ∧
      sorted_chain st.heap as = xs ++ [t] ∧ Chain st2.heap q2.head (xs ++ [t]) ∧
      q2.head = (xs ++ [t]).head? ∧ q2.tail = some t ∧
      Seg st2.heap q2.head xs (some t) ∧ (xs.length : Int) = q2.size - 1 ∧
      load st2.heap t = some n ∧ n.next = none := by
  obtain ⟨h2, hd, tl, hs, hc2, -, htl, -⟩ := q_sort_spec st q as hq hc (hasValues_valued hv) hsize
  obtain ⟨xs, t, hxt, rfl⟩ := htl h2le
  rw [hxt] at hc2
  obtain ⟨m, hs1, hs2⟩ := seg_append.mp hc2
  obtain ⟨hm, n, hn, hnext⟩ := hs2
  subst hm
  have hnext2 : n.next = none := hnext
  have hlen := (sorted_chain_perm st.heap as).length_eq
  rw [hxt] at hlen
  refine ⟨_, _, xs, t, n, hs, rfl, hxt, hc2, ?_, rfl, hs1, ?_, hn, hnext2⟩
  · cases xs with
    | nil => exact hc2.1
    | cons x xs => exact hc2.1
  · simp only [hsize]
    simp at hlen
    omega

theorem q_sort_head_tail_witness :
    ∃ st2 q2 xs t n, q_sort ex_bac = some st2 ∧ st2.q = some q2 ∧
      sorted_chain ex_bac.heap [0, 1, 2] = xs ++ [t] ∧ Chain st2.heap q2.head (xs ++ [t]) ∧
      q2.head = (xs ++ [t]).head? ∧ q2.tail = some t ∧
      Seg st2.heap q2.head xs (some t) ∧ (xs.length : Int) = q2.size - 1 ∧
      load st2.heap t = some n ∧ n.next = none :=
  q_sort_head_tail ex_bac { head := some 0, tail := some 2, size := 3 } [0, 1, 2] rfl
    (by decide) (by decide) rfl (by decide)

/-! ## `q_reverse` -/

theorem reverse_loop_spec (as : List Nat) (fuel : Nat) (h : Heap) (head cur : Option Nat)
    (ds : List Nat) (hd : Chain h head ds) (hc : Chain h cur as) (hdisj : ∀ a ∈ as, a ∉ ds)
    (hf : as.length ≤ fuel) :
    ∃ h2 p, reverse_loop fuel h head cur = some (h2, p) ∧ Chain h2 p (as.reverse ++ ds) ∧
      Relink h h2 as := by
  induction as generalizing fuel h head cur ds with
  | nil =>
    have hcur : cur = none := hc
    subst hcur
    exact ⟨h, head, by cases fuel <;> simp [reverse_loop], by simpa using hd, Relink.refl _ _⟩
  | cons a as ih =>
    have hnd := chain_nodup hc
    obtain ⟨hp, n, hn, hr⟩ := hc
    subst hp
    obtain ⟨f, rfl⟩ : ∃ f, fuel = f + 1 := ⟨fuel - 1, by simp at hf; omega⟩
    have ha_as : a ∉ as := (List.nodup_cons.mp hnd).1
    have ha_ds : a ∉ ds := hdisj a (List.mem_cons_self _ _)
    have hst := load_store_same { n with next := head } (load_lt hn)
    have hd1 : Chain (store h a { n with next := head }) (some a) (a :: ds) :=
      ⟨rfl, _, hst,
        seg_frame (fun x hx => load_store_ne _ (ne_of_mem_of_not_mem hx ha_ds)) hd⟩
    have hr1 : Chain (store h a { n with next := head }) n.next as :=
      seg_frame (fun x hx => load_store_ne _ (ne_of_mem_of_not_mem hx ha_as)) hr
    obtain ⟨h2, p, hrl, hc2, hrel⟩ := ih f _ (some a) n.next (a :: ds) hd1 hr1
      (fun x hx hx2 => by
        rcases List.mem_cons.mp hx2 with rfl | hx3
        · exact ha_as hx
        · exact hdisj x (List.mem_cons_of_mem _ hx) hx3)
      (by simp at hf; omega)
    refine ⟨h2, p, ?_, ?_, ?_⟩
    · simp [reverse_loop, hn, hrl]
    · simpa using hc2
    · exact (relink_store hn head).trans hrel (fun x hx => by simp at hx; simp [hx])
        (fun x hx => List.mem_cons_of_mem _ hx)

theorem q_reverse_spec (st : State) (q : queue_t) (a : Nat) (as : List Nat)
    (hq : st.q = some q) (hc : Chain st.heap q.head (a :: as)) :
    ∃ h2, q_reverse st = some { heap := h2, q := some { head := (a :: as).getLast?,
                                                        tail := some a, size := q.size } } ∧
      Chain h2 (a :: as).getLast? (a :: as).reverse ∧ Relink st.heap h2 (a :: as) := by
  have hlen := chain_length_le hc
  have hhead : q.head = some a := hc.1
  obtain ⟨h2, p, hrl, hc2, hrel⟩ := reverse_loop_spec (a :: as) st.heap.length st.heap none
    q.head [] rfl hc (fun _ _ => by simp) hlen
  rw [List.append_nil] at hc2
  have hp : p = (a :: as).getLast? := by
    rw [← List.head?_reverse]
    cases hrev : (a :: as).reverse with
    | nil => simp at hrev
    | cons b bs => rw [hrev] at hc2; simpa using hc2.1
  subst hp
  refine ⟨h2, ?_, hc2, hrel⟩
  unfold q_reverse
  rw [hq]
  simp only [hhead]
  rw [← hhead, hrl]
  simp [hhead]

theorem values_relink {h h2 : Heap} {S : List Nat} (r : Relink h h2 S) (as : List Nat) :
    values h2 as = values h as := by
  unfold values; rw [r.val_eq]

theorem values_reverse (h : Heap) (as : List Nat) :
    values h as.reverse = (values h as).reverse := by
  unfold values; rw [List.map_reverse]

theorem chain_last_next {h : Heap} {p : Option Nat} {xs : List Nat} {t : Nat}
    (hc : Chain h p (xs ++ [t])) : ∃ n, load h t = some n ∧ n.next = none := by
  obtain ⟨m, -, hs2⟩ := seg_append.mp hc
  obtain ⟨-, n, hn, hnext⟩ := hs2
  exact ⟨n, hn, hnext⟩

/-- C11: `q_reverse` leaves an absent queue and an empty queue as they are.
For a present queue whose chain is `n1..nk` (`k >= 1`) with `tail` its last
element, it returns with the chain `nk..n1` made of the same elements: only
`next` fields change, the value buffers are untouched (the values read are the
old ones in reverse), `head` is the old `tail`, `tail` is the old `head`,
whose `next` is now `NULL`, and `size` is unchanged. -/
theorem q_reverse_correct (st : State) :
    (st.q = none → q_reverse st = some st) ∧
    (∀ q, st.q = some q → q.head = none → q_reverse st = some st) ∧
    (∀ q a as, st.q = some q → Chain st.heap q.head (a :: as) →
      q.tail = (a :: as).getLast? →
      ∃ st2 q2 n, q_reverse st = some st2 ∧ st2.q = some q2 ∧
        Chain st2.heap q2.head (a :: as).reverse ∧ Relink st.heap st2.heap (a :: as) ∧
        values st2.heap (a :: as).reverse = (values st.heap (a :: as)).reverse ∧
        q2.head = q.tail ∧ q2.tail = q.head ∧ load st2.heap a = some n ∧ n.next = none ∧
        q2.size = q.size) := by
  refine ⟨?_, ?_, ?_⟩
  · intro hq
    simp [q_reverse, hq]
  · intro q hq hh
    simp [q_reverse, hq, hh]
  · intro q a as hq hc ht
    obtain ⟨h2, hrv, hc2, hrel⟩ := q_reverse_spec st q a as hq hc
    have hlast : ∃ n, load h2 a = some n ∧ n.next = none := by
      have : (a :: as).reverse = as.reverse ++ [a] := by simp
      rw [this] at hc2
      exact chain_last_next hc2
    obtain ⟨n, hn, hnn⟩ := hlast
    refine ⟨_, _, n, hrv, rfl, hc2, hrel, ?_, ht.symm, hc.1.symm, hn, hnn, rfl⟩
    rw [values_reverse, values_relink hrel]

theorem q_reverse_correct_witness :
    ∃ st2 q2 n, q_reverse ex_cab = some st2 ∧ st2.q = some q2 ∧
      Chain st2.heap q2.head [2, 0, 1].reverse ∧ Relink ex_cab.heap st2.heap [2, 0, 1] ∧
      values st2.heap [2, 0, 1].reverse = (values ex_cab.heap [2, 0, 1]).reverse ∧
      q2.head = some 1 ∧ q2.tail = some 2 ∧ load st2.heap 2 = some n ∧ n.next = none ∧
      q2.size = 3 :=
  (q_reverse_correct ex_cab).2.2 { head := some 2, tail := some 1, size := 3 } 2 [0, 1] rfl
    (by decide) (by decide)

theorem seg_load_eq {h h2 : Heap} {as : List Nat} {p e : Option Nat} (h1 : Seg h p as e)
    (hs2 : Seg h2 p as e)
    (hv : ∀ x, (load h2 x).map (fun n => n.value) = (load h x).map (fun n => n.value)) :
    ∀ x ∈ as, load h2 x = load h x := by
  induction as generalizing p with
  | nil => intro x hx; cases hx
  | cons a as ih =>
    obtain ⟨-, n, hn, hr⟩ := h1
    obtain ⟨-, n2, hn2, hr2⟩ := hs2
    have hnext : n2.next = n.next := by
      cases as with
      | nil =>
        have e1 : n.next = e := hr
        have e2 : n2.next = e := hr2
        rw [e1, e2]
      | cons b bs => rw [hr.1, hr2.1]
    have hval : n2.value = n.value := by
      have := hv a
      rw [hn, hn2] at this
      simpa using this
    have hnn : n2 = n := by
      cases n; cases n2; simp_all
    intro x hx
    rcases List.mem_cons.mp hx with rfl | hx
    · rw [hn, hn2, hnn]
    · rw [hnn] at hr2
      exact ih hr hr2 x hx

/-- C12: for every present queue whose chain ends in `NULL`, two calls of
`q_reverse` return and give back the original chain: the same elements in the
same order from the same `head`, with the same values and the same `size`;
every address holds the element it held before. -/
theorem q_reverse_involution (st : State) (q : queue_t) (as : List Nat) (hq : st.q = some q)
    (hc : Chain st.heap q.head as) :
    ∃ st2 st3 q3, q_reverse st = some st2 ∧ q_reverse st2 = some st3 ∧ st3.q = some q3 ∧
      Chain st3.heap q3.head as ∧ q3.head = q.head ∧ q3.size = q.size ∧
      values st3.heap as = values st.heap as ∧ Relink st.heap st3.heap as ∧
      ∀ p, load st3.heap p = load st.heap p := by
  cases as with
  | nil =>
    have hh : q.head = none := hc
    have h1 : q_reverse st = some st := by simp [q_reverse, hq, hh]
    exact ⟨st, st, q, h1, h1, hq, hc, rfl, rfl, rfl, Relink.refl _ _, fun _ => rfl⟩
  | cons a as =>
    obtain ⟨h2, hrv, hc2, hrel⟩ := q_reverse_spec st q a as hq hc
    obtain ⟨b, bs, hrev⟩ : ∃ b bs, (a :: as).reverse = b :: bs := by
      cases hr : (a :: as).reverse with
      | nil => simp at hr
      | cons b bs => exact ⟨b, bs, rfl⟩
    rw [hrev] at hc2
    obtain ⟨h3, hrv3, hc3, hrel3⟩ := q_reverse_spec
      { heap := h2, q := some { head := (a :: as).getLast?, tail := some a, size := q.size } }
      { head := (a :: as).getLast?, tail := some a, size := q.size } b bs rfl hc2
    have hback : (b :: bs).reverse = a :: as := by rw [← hrev, List.reverse_reverse]
    have hlast : (b :: bs).getLast? = some a := by
      rw [← List.head?_reverse, hback]; rfl
    rw [hback] at hc3
    rw [hlast] at hrv3 hc3
    have hmem : ∀ x, x ∈ b :: bs → x ∈ a :: as := fun x hx => by
      rw [← hrev] at hx; exact List.mem_reverse.mp hx
    have hrel13 : Relink st.heap h3 (a :: as) := hrel.trans hrel3 (fun x hx => hx) hmem
    refine ⟨_, _, _, hrv, hrv3, rfl, hc3, hc.1.symm, rfl, values_relink hrel13 _, hrel13, ?_⟩
    intro p
    by_cases hp : p ∈ a :: as
    · have hc' : Chain st.heap (some a) (a :: as) := by rw [← hc.1]; exact hc
      exact seg_load_eq hc' hc3 hrel13.value_eq p hp
    · exact hrel13.frame p hp

theorem q_reverse_involution_witness :
    ∃ st2 st3 q3, q_reverse ex_cab = some st2 ∧ q_reverse st2 = some st3 ∧ st3.q = some q3 ∧
      Chain st3.heap q3.head [2, 0, 1] ∧ q3.head = some 2 ∧ q3.size = 3 ∧
      values st3.heap [2, 0, 1] = values ex_cab.heap [2, 0, 1] ∧
      Relink ex_cab.heap st3.heap [2, 0, 1] ∧
      ∀ p, load st3.heap p = load ex_cab.heap p :=
  q_reverse_involution ex_cab { head := some 2, tail := some 1, size := 3 } [2, 0, 1] rfl
    (by decide)

/-! ## Equal values -/

theorem lexcmp_eq_zero {a b : List Nat} (h : lexcmp a b = 0) : a = b := by
  induction a generalizing b with
  | nil => cases b with
    | nil => rfl
    | cons y ys => simp [lexcmp] at h
  | cons x xs ih =>
    cases b with
    | nil => simp [lexcmp] at h
    | cons y ys =>
      simp only [lexcmp] at h
      by_cases hxy : x = y
      · subst hxy
        rw [if_pos rfl] at h
        rw [ih h]
      · rw [if_neg hxy] at h
        omega

theorem lexcmp_antisymm {a b : List Nat} (h1 : lexcmp a b ≤ 0) (h2 : lexcmp b a ≤ 0) :
    a = b := by
  apply lexcmp_eq_zero
  have := (lexcmp_flip a b).1
  by_contra hne
  have hlt : lexcmp a b < 0 := by omega
  have := this.mp hlt
  omega

theorem strcmp_eq_zero_iff {x y : List Nat} : strcmp x y = 0 ↔ cstr x = cstr y := by
  unfold strcmp
  constructor
  · exact lexcmp_eq_zero
  · intro h; rw [h]; exact lexcmp_self _

theorem strcmp_lt_of_lt_of_le {x y z : List Nat} (h1 : strcmp x y < 0) (h2 : str_le y z) :
    strcmp x z < 0 := by
  have h3 : str_le x z := str_le_trans (str_le_of_lt h1) h2
  unfold str_le at h2 h3
  by_contra hc
  have h0 : strcmp x z = 0 := by omega
  have hxz := strcmp_eq_zero_iff.mp h0
  unfold strcmp at h1 h2
  rw [hxz] at h1
  have := (lexcmp_flip (cstr z) (cstr y)).1.mp h1
  omega

theorem sorted_values_unique {l1 l2 : List (List Nat)} (hc : ∀ x ∈ l1, cstr x = x)
    (hp : l1.Perm l2) (h1 : l1.Pairwise (fun x y => strcmp x y ≤ 0))
    (h2 : l2.Pairwise (fun x y => strcmp x y ≤ 0)) : l1 = l2 := by
  refine List.Perm.eq_of_sorted ?_ h1 h2 hp
  intro a b ha hb hab hba
  have hb' : b ∈ l1 := hp.mem_iff.mpr hb
  have := lexcmp_antisymm hab hba
  rwa [hc a ha, hc b hb'] at this

theorem values_cstr (h : Heap) (as : List Nat) : ∀ x ∈ values h as, cstr x = x := by
  intro x hx
  unfold values at hx
  obtain ⟨a, -, rfl⟩ := List.mem_map.mp hx
  exact cstr_idem _

/-- C13: for every present queue whose chain is made of elements holding
strings and whose `size` equals the length of the chain, `q_sort` returns and
a second `q_sort` returns as well, with the same sequence of values as after
the first; and when the values were already non-decreasing, the first
`q_sort` leaves the sequence of values as it was. -/
theorem q_sort_idempotent (st : State) (q : queue_t) (as : List Nat) (hq : st.q = some q)
    (hc : Chain st.heap q.head as) (hv : HasValues st.heap as)
    (hsize : q.size = (as.length : Int)) :
    ∃ st2 q2 bs st3 q3 cs, q_sort st = some st2 ∧ st2.q = some q2 ∧
      Chain st2.heap q2.head bs ∧ q_sort st2 = some st3 ∧ st3.q = some q3 ∧
      Chain st3.heap q3.head cs ∧ values st3.heap cs = values st2.heap bs ∧
      ((values st.heap as).Chain' (fun x y => strcmp x y ≤ 0) →
        values st2.heap bs = values st.heap as) := by
  obtain ⟨h2, hd, tl, hs, hc2, hr, -, -⟩ := q_sort_spec st q as hq hc (hasValues_valued hv) hsize
  have hperm := sorted_chain_perm st.heap as
  have hv2 : HasValues h2 (sorted_chain st.heap as) :=
    hr.hasValues (hasValues_sub hv (fun x hx => hperm.mem_iff.mp hx))
  have hsorted2 : (values h2 (sorted_chain st.heap as)).Pairwise
      (fun x y => strcmp x y ≤ 0) := by
    rw [values_sorted_iff, hr.val_eq]
    exact sorted_chain_sorted st.heap q.head as hc
  have hvperm : (values h2 (sorted_chain st.heap as)).Perm (values st.heap as) := by
    rw [values_relink hr]
    exact hperm.map _
  obtain ⟨h3, hd3, tl3, hs3, hc3, hr3, -, -⟩ := q_sort_spec
    { heap := h2, q := some { head := hd, tail := tl, size := q.size } }
    { head := hd, tail := tl, size := q.size } (sorted_chain st.heap as) rfl hc2 (hasValues_valued hv2)
    (by simp only [hsize, hperm.length_eq])
  have hperm3 := sorted_chain_perm h2 (sorted_chain st.heap as)
  have hsorted3 : (values h3 (sorted_chain h2 (sorted_chain st.heap as))).Pairwise
      (fun x y => strcmp x y ≤ 0) := by
    rw [values_sorted_iff, hr3.val_eq]
    exact sorted_chain_sorted h2 hd _ hc2
  refine ⟨_, _, _, _, _, _, hs, rfl, hc2, hs3, rfl, hc3, ?_, ?_⟩
  · apply sorted_values_unique (values_cstr _ _) _ hsorted3 hsorted2
    rw [values_relink hr3]
    exact hperm3.map _
  · intro hsorted
    exact sorted_values_unique (values_cstr _ _) hvperm hsorted2
      ((chain'_strcmp_iff _).mp hsorted)

theorem q_sort_idempotent_witness :
    ∃ st2 q2 bs st3 q3 cs, q_sort ex_bac = some st2 ∧ st2.q = some q2 ∧
      Chain st2.heap q2.head bs ∧ q_sort st2 = some st3 ∧ st3.q = some q3 ∧
      Chain st3.heap q3.head cs ∧ values st3.heap cs = values st2.heap bs ∧
      ((values ex_bac.heap [0, 1, 2]).Chain' (fun x y => strcmp x y ≤ 0) →
        values st2.heap bs = values ex_bac.heap [0, 1, 2]) :=
  q_sort_idempotent ex_bac { head := some 0, tail := some 2, size := 3 } [0, 1, 2] rfl
    (by decide) (by decide) rfl

/-! ## Ties in `merge` -/

theorem merge_list_filter (key : Nat → List Nat) (k : List Nat) (ls rs : List Nat)
    (hr : rs.Pairwise (fun a b => str_le (key a) (key b))) :
    (merge_list key ls rs).filter (fun a => decide (strcmp (key a) k = 0)) =
      rs.filter (fun a => decide (strcmp (key a) k = 0)) ++
        ls.filter (fun a => decide (strcmp (key a) k = 0)) := by
  induction ls generalizing rs with
  | nil => simp [merge_list]
  | cons l ls ihl =>
    induction rs with
    | nil => simp [merge_list]
    | cons r rs ihr =>
      rw [merge_list]
      split
      · rename_i hlt
        rw [List.filter_cons, ihl (r :: rs) hr]
        by_cases hpl : strcmp (key l) k = 0
        · have hnone : (r :: rs).filter (fun a => decide (strcmp (key a) k = 0)) = [] := by
            rw [List.filter_eq_nil_iff]
            intro b hb
            have hlb : strcmp (key l) (key b) < 0 := by
              rcases List.mem_cons.mp hb with rfl | hb2
              · exact hlt
              · exact strcmp_lt_of_lt_of_le hlt ((List.pairwise_cons.mp hr).1 b hb2)
            intro hpb
            have hpb2 : strcmp (key b) k = 0 := by simpa using hpb
            have e1 := strcmp_eq_zero_iff.mp hpl
            have e2 := strcmp_eq_zero_iff.mp hpb2
            have : strcmp (key l) (key b) = 0 := strcmp_eq_zero_iff.mpr (e1.trans e2.symm)
            omega
          rw [hnone]
          simp [hpl]
        · simp [hpl]
      · rw [List.filter_cons, ihr (List.pairwise_cons.mp hr).2]
        by_cases hpr : strcmp (key r) k = 0
        · simp [hpr]
        · simp [hpr]

theorem merge_sort_list_filter (key : Nat → List Nat) (k : List Nat) (fuel : Nat)
    (as : List Nat) (hf : as.length ≤ fuel + 1) :
    (merge_sort_list key fuel as).filter (fun a => decide (strcmp (key a) k = 0)) =
      (as.filter (fun a => decide (strcmp (key a) k = 0))).reverse := by
  have hshort : ∀ l : List Nat, l.length ≤ 1 →
      l.filter (fun a => decide (strcmp (key a) k = 0)) =
        (l.filter (fun a => decide (strcmp (key a) k = 0))).reverse := by
    intro l hl
    match l, hl with
    | [], _ => rfl
    | [a], _ =>
      rw [List.filter_cons]
      split <;> simp
  induction fuel generalizing as with
  | zero =>
    rw [merge_sort_list]
    exact hshort as (by omega)
  | succ f ih =>
    rw [merge_sort_list]
    split
    · rename_i h1
      exact hshort as h1
    · rename_i h1
      rw [merge_list_filter key k _ _ (merge_sort_list_sorted key f _
        (by rw [List.length_drop]; omega))]
      rw [ih _ (by rw [List.length_drop]; omega), ih _ (by rw [List.length_take]; omega)]
      rw [← List.reverse_append, ← List.filter_append, List.take_append_drop]

theorem sublist_pair_filter {as : List Nat} {x y : Nat} (p : Nat → Bool)
    (hs : List.Sublist [x, y] as) (hx : p x = true) (hy : p y = true) :
    List.Sublist [x, y] (as.filter p) := by
  have := hs.filter p
  simpa [List.filter_cons, hx, hy] using this

/-- C14 (amended): `q_sort` is not stable but reverses the relative order of
equal values.  `merge` takes the element of the left chain only when its value
is strictly less than the value at the head of the right chain, so a tie goes
to the right chain; hence, for every present queue whose chain is made of
elements holding strings and whose `size` equals the length of the chain, two
elements with byte-equal values come out of `q_sort` in the opposite relative
order. -/
theorem q_sort_reverses_ties (st : State) (q : queue_t) (as : List Nat) (hq : st.q = some q)
    (hc : Chain st.heap q.head as) (hv : HasValues st.heap as)
    (hsize : q.size = (as.length : Int)) :
    (∀ l ls r rs, strcmp (val st.heap l) (val st.heap r) = 0 →
      merge_list (val st.heap) (l :: ls) (r :: rs) =
        r :: merge_list (val st.heap) (l :: ls) rs) ∧
    ∃ st2 q2 bs, q_sort st = some st2 ∧ st2.q = some q2 ∧ Chain st2.heap q2.head bs ∧
      ∀ x y, List.Sublist [x, y] as → strcmp (val st.heap x) (val st.heap y) = 0 →
        List.Sublist [y, x] bs := by
  constructor
  · intro l ls r rs heq
    rw [merge_list, if_neg (by omega)]
  · obtain ⟨h2, hd, tl, hs, hc2, -, -, -⟩ := q_sort_spec st q as hq hc (hasValues_valued hv) hsize
    refine ⟨_, _, _, hs, rfl, hc2, ?_⟩
    intro x y hxy heq
    have hlen := chain_length_le hc
    have hfil := merge_sort_list_filter (val st.heap) (val st.heap y) st.heap.length as
      (by omega)
    have hpx : decide (strcmp (val st.heap x) (val st.heap y) = 0) = true := by
      simpa using heq
    have hpy : decide (strcmp (val st.heap y) (val st.heap y) = 0) = true := by
      simpa using strcmp_eq_zero_iff.mpr rfl
    have h1 := sublist_pair_filter
      (fun a => decide (strcmp (val st.heap a) (val st.heap y) = 0)) hxy hpx hpy
    have h2' := List.reverse_sublist.mpr h1
    rw [← hfil] at h2'
    have h3 : [x, y].reverse = [y, x] := rfl
    rw [h3] at h2'
    exact h2'.trans (List.filter_sublist _)

theorem q_sort_reverses_ties_witness :
    (∀ l ls r rs, strcmp (val ex_aa.heap l) (val ex_aa.heap r) = 0 →
      merge_list (val ex_aa.heap) (l :: ls) (r :: rs) =
        r :: merge_list (val ex_aa.heap) (l :: ls) rs) ∧
    ∃ st2 q2 bs, q_sort ex_aa = some st2 ∧ st2.q = some q2 ∧ Chain st2.heap q2.head bs ∧
      ∀ x y, List.Sublist [x, y] [0, 1] →
        strcmp (val ex_aa.heap x) (val ex_aa.heap y) = 0 → List.Sublist [y, x] bs :=
  q_sort_reverses_ties ex_aa { head := some 0, tail := some 1, size := 2 } [0, 1] rfl
    (by decide) (by decide) rfl

/-- C14 (counterexample): on the queue of two elements that both hold `a`,
`merge` returns the right element first and `q_sort` swaps the two elements,
so the sort is not stable. -/
theorem q_sort_not_stable :
    merge 2 [some { value := some [97, 0], next := none },
             some { value := some [97, 0], next := none }] (some 0) (some 1) =
        some ([some { value := some [97, 0], next := none },
               some { value := some [97, 0], next := some 0 }], some 1) ∧
      q_sort ex_aa =
        some { heap := [some { value := some [97, 0], next := none },
                        some { value := some [97, 0], next := some 0 }],
               q := some { head := some 1, tail := some 0, size := 2 } } ∧
      ¬ StableSort ex_aa [0, 1] := by
  refine ⟨by decide, by decide, ?_⟩
  intro hst
  have h1 := hst
    { heap := [some { value := some [97, 0], next := none },
               some { value := some [97, 0], next := some 0 }],
      q := some { head := some 1, tail := some 0, size := 2 } }
    { head := some 1, tail := some 0, size := 2 } [1, 0] (by decide) rfl
    (by decide) 0 1 (List.Sublist.refl _) (by decide)
  revert h1
  decide

/-! ## Integer conversions and string copies -/

theorem wrap_int_of_range {i : Int} (h1 : INT_MIN ≤ i) (h2 : i ≤ INT_MAX) : wrap_int i = i := by
  unfold wrap_int
  unfold INT_MIN at h1
  unfold INT_MAX at h2
  omega

theorem wrap_int_add (a b : Int) : wrap_int (wrap_int a + b) = wrap_int (a + b) := by
  unfold wrap_int
  omega

theorem to_int_of_le {n : Nat} (h : (n : Int) ≤ INT_MAX) : to_int n = (n : Int) := by
  unfold to_int
  exact wrap_int_of_range (by unfold INT_MIN; omega) h

theorem to_size_t_ofNat {n : Nat} (hn : (n : Int) ≤ INT_MAX) : to_size_t (n : Int) = n := by
  unfold to_size_t
  unfold INT_MAX at hn
  have h1 : ((n : Int) % (2 ^ 64 : Int)) = (n : Int) := by
    apply Int.emod_eq_of_lt
    · omega
    · norm_num; omega
  rw [h1]; rfl

theorem cstr_ne_zero {s : List Nat} {x : Nat} (hx : x ∈ cstr s) : x ≠ 0 := by
  have := List.mem_takeWhile_imp hx
  simpa using this

theorem cstr_append_zero (xs rest : List Nat) (hx : ∀ x ∈ xs, x ≠ 0) :
    cstr (xs ++ 0 :: rest) = xs := by
  unfold cstr
  induction xs with
  | nil => simp [List.takeWhile_cons]
  | cons x xs ih =>
    have h1 : x ≠ 0 := hx x (List.mem_cons_self _ _)
    simp only [List.cons_append, List.takeWhile_cons]
    simp only [bne_iff_ne, ne_eq, h1, not_false_eq_true, ↓reduceIte, List.cons.injEq, true_and]
    exact ih (fun y hy => hx y (List.mem_cons_of_mem _ hy))

/-- Lines 65-72 for a string whose length plus one fits an `int`: the value
buffer is the string followed by one zero byte. -/
theorem dup_value_short (s : List Nat) (hlen : ((strlen s + 1 : Nat) : Int) ≤ INT_MAX) :
    dup_value s = some (cstr s ++ [0]) := by
  unfold dup_value
  rw [to_int_of_le hlen, to_size_t_ofNat hlen]
  have h2 : (((strlen s + 1 : Nat) : Int) - 1) = ((strlen s : Nat) : Int) := by
    push_cast; ring
  have h3 : ((strlen s : Nat) : Int) ≤ INT_MAX := by push_cast at hlen ⊢; omega
  rw [h2, wrap_int_of_range (by unfold INT_MIN; omega) h3, to_size_t_ofNat h3]
  simp only [bzero, malloc_bytes, List.length_replicate, le_refl, ↓reduceIte, Option.some_bind,
    List.drop_replicate, Nat.sub_self, List.replicate_zero, List.append_nil, strncpy]
  rw [if_pos (by omega)]
  have h4 : List.take (strlen s) (cstr s) = cstr s := List.take_of_length_le (le_of_eq rfl)
  simp [h4, List.drop_replicate]

theorem cstr_replicate (n : Nat) : cstr (List.replicate n 97) = List.replicate n 97 := by
  unfold cstr
  rw [List.takeWhile_replicate]
  simp

theorem strlen_replicate (n : Nat) : strlen (List.replicate n 97) = n := by
  unfold strlen
  rw [cstr_replicate, List.length_replicate]

/-- Lines 65-72 for a string of `n >= 2` letters `a` whose `len` comes out as
3: the value buffer holds `aa`. -/
theorem dup_value_replicate (n : Nat) (hlen : to_int (n + 1) = 3) (hn : 2 ≤ n) :
    dup_value (List.replicate n 97) = some [97, 97, 0] := by
  have h2 : to_size_t 3 = 3 := by decide
  have h3 : to_size_t (wrap_int (3 - 1)) = 2 := by decide
  unfold dup_value
  rw [strlen_replicate, hlen, h2, h3]
  unfold strncpy
  simp only [bzero, malloc_bytes, List.length_replicate, le_refl, ↓reduceIte, Option.some_bind]
  rw [if_pos (by simp)]
  rw [cstr_replicate, strlen_replicate, List.take_replicate, Nat.min_eq_left hn,
    Nat.sub_eq_zero_of_le hn]
  rfl

/-- Lines 65-72 for a string of `2 ^ 32 + 2` letters `a`: `len` is 3 and the
value buffer holds `aa`. -/
theorem dup_value_long : dup_value (List.replicate 4294967298 97) = some [97, 97, 0] :=
  dup_value_replicate 4294967298 (by decide) (by decide)

/-! ## Heap cells added by the inserts -/

theorem seg_append_cell {h : Heap} {p e : Option Nat} {as : List Nat} (c : Option list_ele_t)
    (hs : Seg h p as e) : Seg (h ++ [c]) p as e := by
  induction as generalizing p with
  | nil => exact hs
  | cons a as ih =>
    obtain ⟨hp, n, hn, hr⟩ := hs
    exact ⟨hp, n, load_append_of_some c hn, ih hr⟩

theorem val_append_cell {h : Heap} {a : Nat} (c : Option list_ele_t) (ha : a < h.length) :
    val (h ++ [c]) a = val h a := by
  unfold val load
  rw [List.getElem?_append_left ha]

theorem values_append_cell {h : Heap} {p e : Option Nat} {as : List Nat}
    (c : Option list_ele_t) (hs : Seg h p as e) : values (h ++ [c]) as = values h as := by
  unfold values
  apply List.map_congr_left
  intro a ha
  obtain ⟨n, hn⟩ := chain_live hs ha
  rw [val_append_cell c (load_lt hn)]

theorem load_length_none (h : Heap) : load h h.length = none := by
  simp [load]

/-! ## Outcomes of the insert and remove calls -/

theorem q_insert_head_cases {st st2 : State} {q : queue_t} {s : List Nat} {a b r : Bool}
    (hq : st.q = some q) (hs : q_insert_head st s a b = some (st2, r)) :
    (a = false ∧ st2 = st ∧ r = false) ∨
    (a = true ∧ b = false ∧ r = false ∧ st2 = { heap := st.heap ++ [none], q := some q }) ∨
    (a = true ∧ b = true ∧ r = true ∧ ∃ v, dup_value s = some v ∧
      st2 = { heap := st.heap ++ [some { value := some v, next := q.head }],
              q := some { head := some st.heap.length,
                          tail := if q.tail = none then some st.heap.length else q.tail,
                          size := wrap_int (q.size + 1) } }) := by
  unfold q_insert_head at hs
  rw [hq] at hs
  simp only at hs
  cases a with
  | false =>
    simp only [↓reduceIte, Option.some.injEq, Prod.mk.injEq] at hs
    exact Or.inl ⟨rfl, hs.1.symm, hs.2.symm⟩
  | true =>
    simp only [Bool.true_eq_false, ↓reduceIte] at hs
    cases b with
    | false =>
      simp only [↓reduceIte, Option.some.injEq, Prod.mk.injEq] at hs
      exact Or.inr (Or.inl ⟨rfl, rfl, hs.2.symm, hs.1.symm⟩)
    | true =>
      simp only [Bool.true_eq_false, ↓reduceIte] at hs
      obtain ⟨v0, hv0, hs⟩ := Option.bind_eq_some.mp hs
      obtain ⟨v, hv, hs⟩ := Option.bind_eq_some.mp hs
      simp only [Option.some.injEq, Prod.mk.injEq] at hs
      refine Or.inr (Or.inr ⟨rfl, rfl, hs.2.symm, v, ?_, hs.1.symm⟩)
      exact Option.bind_eq_some.mpr ⟨v0, hv0, hv⟩

theorem q_insert_head_succeeds (st : State) (q : queue_t) (s v : List Nat) (hq : st.q = some q)
    (hv : dup_value s = some v) :
    q_insert_head st s true true =
      some ({ heap := st.heap ++ [some { value := some v, next := q.head }],
              q := some { head := some st.heap.length,
                          tail := if q.tail = none then some st.heap.length else q.tail,
                          size := wrap_int (q.size + 1) } }, true) := by
  unfold dup_value at hv
  obtain ⟨v0, hv0, hv1⟩ := Option.bind_eq_some.mp hv
  unfold q_insert_head
  rw [hq]
  simp only [Bool.true_eq_false, if_false]
  exact Option.bind_eq_some.mpr ⟨v0, hv0, Option.bind_eq_some.mpr ⟨v, hv1, rfl⟩⟩

theorem q_insert_tail_cases {st st2 : State} {q : queue_t} {s : List Nat} {a b r : Bool}
    (hq : st.q = some q) (hs : q_insert_tail st s a b = some (st2, r)) :
    (a = false ∧ st2 = st ∧ r = false) ∨
    (a = true ∧ b = false ∧ r = false ∧ st2 = { heap := st.heap ++ [none], q := some q }) ∨
    (a = true ∧ b = true ∧ r = true ∧ ∃ v, dup_value s = some v ∧
      ((q.head = none ∧
        st2 = { heap := st.heap ++ [some { value := some v, next := none }],
                q := some { head := some st.heap.length, tail := some st.heap.length,
                            size := wrap_int (q.size + 1) } }) ∨
       (∃ hd t nt, q.head = some hd ∧ q.tail = some t ∧
          load (st.heap ++ [some { value := some v, next := none }]) t = some nt ∧
          st2 = { heap := store (st.heap ++ [some { value := some v, next := none }]) t
                            { nt with next := some st.heap.length },
                  q := some { head := some hd, tail := some st.heap.length,
                              size := wrap_int (q.size + 1) } }))) := by
  unfold q_insert_tail at hs
  rw [hq] at hs
  simp only at hs
  cases a with
  | false =>
    simp only [↓reduceIte, Option.some.injEq, Prod.mk.injEq] at hs
    exact Or.inl ⟨rfl, hs.1.symm, hs.2.symm⟩
  | true =>
    simp only [Bool.true_eq_false, ↓reduceIte] at hs
    cases b with
    | false =>
      simp only [↓reduceIte, Option.some.injEq, Prod.mk.injEq] at hs
      exact Or.inr (Or.inl ⟨rfl, rfl, hs.2.symm, hs.1.symm⟩)
    | true =>
      simp only [Bool.true_eq_false, ↓reduceIte] at hs
      obtain ⟨v0, hv0, hs⟩ := Option.bind_eq_some.mp hs
      obtain ⟨v, hv, hs⟩ := Option.bind_eq_some.mp hs
      have hdup : dup_value s = some v := Option.bind_eq_some.mpr ⟨v0, hv0, hv⟩
      refine Or.inr (Or.inr ⟨rfl, rfl, ?_⟩)
      cases hh : q.head with
      | none =>
        rw [hh] at hs
        simp only [Option.some.injEq, Prod.mk.injEq] at hs
        exact ⟨hs.2.symm, v, hdup, Or.inl ⟨rfl, hs.1.symm⟩⟩
      | some hd =>
        rw [hh] at hs
        simp only at hs
        cases ht : q.tail with
        | none => rw [ht] at hs; simp at hs
        | some t =>
          rw [ht] at hs
          simp only at hs
          cases hl : load (st.heap ++ [some { value := some v, next := none }]) t with
          | none => simp [set_next, hl] at hs
          | some nt =>
            have hlt := load_lt hl
            simp only [set_next, hl, Option.map_some', Option.some_bind,
              load_store_same _ hlt, Option.some.injEq, Prod.mk.injEq] at hs
            exact ⟨hs.2.symm, v, hdup, Or.inr ⟨hd, t, nt, rfl, rfl, hl, hs.1.symm⟩⟩

theorem q_remove_head_cases {st st2 : State} {q : queue_t} {hd : Nat}
    {sp out : Option (List Nat)} {c : Nat} {r : Bool} (hq : st.q = some q)
    (hh : q.head = some hd) (hs : q_remove_head st sp c = some (st2, out, r)) :
    ∃ node, load st.heap hd = some node ∧ r = true ∧
      st2 = { heap := free st.heap hd,
              q := some { head := node.next, tail := q.tail,
                          size := wrap_int (q.size - 1) } } := by
  unfold q_remove_head at hs
  rw [hq] at hs
  simp only [hh] at hs
  cases hl : load st.heap hd with
  | none => rw [hl] at hs; simp at hs
  | some node =>
    rw [hl] at hs
    simp only [Option.some_bind] at hs
    obtain ⟨sp2, -, h2⟩ := Option.bind_eq_some.mp hs
    simp only [Option.some.injEq, Prod.mk.injEq] at h2
    exact ⟨node, rfl, h2.2.2.symm, h2.1.symm⟩

/-! ## `q_remove_head` -/

theorem strlen_le_length (v : List Nat) : strlen v ≤ v.length := by
  unfold strlen cstr
  exact (List.takeWhile_sublist _).length_le

theorem copy_len_eq (v : List Nat) (c : Nat) (hv : (v.length : Int) ≤ INT_MAX) (hc : 1 ≤ c) :
    copy_len v c = min (strlen v) (c - 1) := by
  have h0 := strlen_le_length v
  have h1 : ((strnlen v c : Nat) : Int) ≤ INT_MAX := by
    unfold strnlen; omega
  unfold copy_len
  simp only []
  rw [to_int_of_le h1, to_size_t_ofNat h1]
  unfold strnlen at h1 ⊢
  by_cases hlt : strlen v < c
  · have hm : min (strlen v) c = strlen v := Nat.min_eq_left (by omega)
    rw [hm] at h1 ⊢
    rw [if_neg (by omega), to_size_t_ofNat h1]
    omega
  · have hm : min (strlen v) c = c := Nat.min_eq_right (by omega)
    rw [hm] at h1 ⊢
    rw [if_pos rfl]
    have h2 : ((c : Nat) : Int) - 1 = ((c - 1 : Nat) : Int) := by omega
    have h3 : ((c - 1 : Nat) : Int) ≤ INT_MAX := by omega
    rw [h2, wrap_int_of_range (by unfold INT_MIN; omega) h3, to_size_t_ofNat h3]
    omega

theorem copy_out (v buf : List Nat) (c : Nat) (hv : (v.length : Int) ≤ INT_MAX) (hc : 1 ≤ c)
    (hb : c ≤ buf.length) :
    ((bzero buf c).bind fun b0 => (strncpy b0 v (copy_len v c)).map some) =
      some (some (copied v buf c)) := by
  rw [copy_len_eq v c hv hc]
  simp only [Option.some_bind, bzero, if_pos hb, strncpy]
  rw [if_pos (by simp; omega)]
  simp only [Option.map_some', Option.some.injEq]
  unfold copied
  have hk : min (strlen v) (c - 1) ≤ c := by omega
  have h1 : List.take (min (strlen v) (c - 1)) (cstr v) = List.take (c - 1) (cstr v) := by
    by_cases hlt : strlen v ≤ c - 1
    · rw [Nat.min_eq_left hlt,
        List.take_of_length_le (show (cstr v).length ≤ strlen v from le_refl _),
        List.take_of_length_le (show (cstr v).length ≤ c - 1 from hlt)]
    · rw [Nat.min_eq_right (by omega)]
  have h2 : min (strlen v) (c - 1) - strlen v = 0 := by omega
  have h3 : List.drop (min (strlen v) (c - 1)) (List.replicate c 0 ++ List.drop c buf) =
      List.replicate (c - min (strlen v) (c - 1)) 0 ++ List.drop c buf := by
    rw [List.drop_append_of_le_length (by simp), List.drop_replicate]
  rw [h1, h2, h3]
  simp

theorem copied_length (v buf : List Nat) (c : Nat) (hc : 1 ≤ c) (hb : c ≤ buf.length) :
    (copied v buf c).length = buf.length := by
  unfold copied
  have h0 : (cstr v).length = strlen v := rfl
  simp only [List.length_append, List.length_take, List.length_replicate, List.length_drop, h0]
  omega

theorem copied_drop (v buf : List Nat) (c : Nat) (hc : 1 ≤ c) :
    (copied v buf c).drop c = buf.drop c := by
  unfold copied
  have h0 : (cstr v).length = strlen v := rfl
  rw [List.drop_append_of_le_length (by simp [h0]; omega)]
  rw [List.drop_of_length_le (by simp [h0]; omega)]
  simp

theorem copied_cstr (v buf : List Nat) (c : Nat) (hc : 1 ≤ c) :
    cstr (copied v buf c) = (cstr v).take (c - 1) := by
  unfold copied
  obtain ⟨m, hm⟩ : ∃ m, c - min (strlen v) (c - 1) = m + 1 :=
    ⟨c - min (strlen v) (c - 1) - 1, by omega⟩
  rw [hm, List.replicate_succ, List.append_assoc, List.cons_append]
  exact cstr_append_zero _ _ (fun x hx => cstr_ne_zero (List.mem_of_mem_take hx))

theorem q_remove_head_spec (st : State) (q : queue_t) (a : Nat) (n : list_ele_t)
    (sp : Option (List Nat)) (c : Nat) (hq : st.q = some q) (hh : q.head = some a)
    (hl : load st.heap a = some n) (hs : stored st.heap a = true) (hb : ValidBuffer sp c) :
    q_remove_head st sp c =
      some ({ heap := free st.heap a,
              q := some { head := n.next, tail := q.tail, size := wrap_int (q.size - 1) } },
            sp.map (fun buf => copied (val st.heap a) buf c), true) := by
  obtain ⟨n2, v, hn2, hv, hvl⟩ := stored_iff.mp hs
  rw [hl] at hn2; cases hn2
  have hval : val st.heap a = v := by simp [val, hl, hv]
  unfold q_remove_head
  rw [hq]
  simp only [hh, hl, Option.some_bind, hv]
  cases sp with
  | none => simp
  | some buf =>
    obtain ⟨h1, h2⟩ := hb
    simp only [copy_out v buf c hvl h1 h2, Option.some_bind, Option.map_some', hval]

theorem val_free_ne {h : Heap} {a b : Nat} (hne : b ≠ a) : val (free h a) b = val h b := by
  unfold val; rw [load_free_ne hne]

theorem stored_free_ne {h : Heap} {a b : Nat} (hne : b ≠ a) :
    stored (free h a) b = stored h b := by
  unfold stored; rw [load_free_ne hne]

theorem values_free {h : Heap} {a : Nat} {as : List Nat} (ha : a ∉ as) :
    values (free h a) as = values h as := by
  unfold values
  apply List.map_congr_left
  intro b hb
  rw [val_free_ne (ne_of_mem_of_not_mem hb ha)]

theorem remove_n_spec (as : List Nat) (st : State) (q : queue_t) (buf : List Nat) (c : Nat)
    (hq : st.q = some q) (hc : Chain st.heap q.head as) (hv : HasValues st.heap as)
    (hc1 : 1 ≤ c) (hc2 : c ≤ buf.length) (hlen : ∀ b ∈ as, strlen (val st.heap b) < c) :
    ∃ st3, remove_n as.length st buf c = some (st3, values st.heap as) := by
  induction as generalizing st q buf with
  | nil => exact ⟨st, rfl⟩
  | cons a as ih =>
    have hnd := chain_nodup hc
    obtain ⟨hp, n, hn, hr⟩ := hc
    have ha : a ∉ as := (List.nodup_cons.mp hnd).1
    have hrm := q_remove_head_spec st q a n (some buf) c hq hp hn
      (hv a (List.mem_cons_self _ _)) ⟨hc1, hc2⟩
    have hr2 : Chain (free st.heap a) n.next as :=
      seg_frame (fun b hb => load_free_ne (ne_of_mem_of_not_mem hb ha)) hr
    have hv2 : HasValues (free st.heap a) as := by
      intro b hb
      rw [stored_free_ne (ne_of_mem_of_not_mem hb ha)]
      exact hv b (List.mem_cons_of_mem _ hb)
    obtain ⟨st3, h3⟩ := ih
      { heap := free st.heap a,
        q := some { head := n.next, tail := q.tail, size := wrap_int (q.size - 1) } }
      { head := n.next, tail := q.tail, size := wrap_int (q.size - 1) }
      (copied (val st.heap a) buf c)
      rfl hr2 hv2 (by rw [copied_length _ _ _ hc1 hc2]; exact hc2)
      (fun b hb => by
        rw [val_free_ne (ne_of_mem_of_not_mem hb ha)]
        exact hlen b (List.mem_cons_of_mem _ hb))
    refine ⟨st3, ?_⟩
    simp only [List.length_cons, remove_n, hrm, Option.some_bind, Option.map_some', h3]
    have h4 : cstr (copied (val st.heap a) buf c) = cstr (val st.heap a) := by
      rw [copied_cstr _ _ _ hc1]
      apply List.take_of_length_le
      have := hlen a (List.mem_cons_self _ _)
      unfold strlen at this
      omega
    rw [h4, values_free ha]
    rfl


/-! ## Failing calls -/

theorem load_append_ne {h : Heap} {b : Nat} (c : Option list_ele_t) (hb : b ≠ h.length) :
    load (h ++ [c]) b = load h b := by
  unfold load
  by_cases hlt : b < h.length
  · rw [List.getElem?_append_left hlt]
  · rw [List.getElem?_eq_none (by simp; omega), List.getElem?_eq_none (by omega)]

theorem load_free_append (h : Heap) (c : Option list_ele_t) (b : Nat) :
    load (free (h ++ [c]) h.length) b = load h b := by
  by_cases hb : b = h.length
  · subst hb
    rw [load_free_same, load_length_none]
  · rw [load_free_ne hb, load_append_ne c hb]

theorem load_append_none (h : Heap) (p : Nat) : load (h ++ [none]) p = load h p := by
  by_cases hp : p = h.length
  · subst hp
    rw [load_append_new, load_length_none]
  · exact load_append_ne none hp

/-- C15: a call that returns `false` leaves the queue as it was.
`q_insert_head` and `q_insert_tail` return `false` exactly when the queue is
absent or one of the two allocations fails, and then the queue structure and
the element at every address are unchanged; `q_remove_head` returns `false`
exactly when the queue is absent or its `head` is `NULL`, and then the state
and the caller's buffer are unchanged; these failing calls are defined;
`q_size` is 0 for an absent queue. -/
theorem failure_atomic (st : State) (s : List Nat) (a b : Bool) (sp : Option (List Nat))
    (c : Nat) :
    (∀ st2 r, q_insert_head st s a b = some (st2, r) →
      (r = false ↔ (st.q = none ∨ a = false ∨ b = false)) ∧
      (r = false → st2.q = st.q ∧ ∀ p, load st2.heap p = load st.heap p)) ∧
    (∀ st2 r, q_insert_tail st s a b = some (st2, r) →
      (r = false ↔ (st.q = none ∨ a = false ∨ b = false)) ∧
      (r = false → st2.q = st.q ∧ ∀ p, load st2.heap p = load st.heap p)) ∧
    (∀ st2 out r, q_remove_head st sp c = some (st2, out, r) →
      (r = false ↔ (st.q = none ∨ ∃ q, st.q = some q ∧ q.head = none)) ∧
      (r = false → st2 = st ∧ out = sp)) ∧
    (st.q = none → q_insert_head st s a b = some (st, false) ∧
      q_insert_tail st s a b = some (st, false) ∧
      q_remove_head st sp c = some (st, sp, false) ∧ q_size st = 0) ∧
    (q_insert_head st s false b = some (st, false) ∧
      q_insert_tail st s false b = some (st, false)) ∧
    (∀ q, st.q = some q →
      q_insert_head st s true false =
        some ({ heap := st.heap ++ [none], q := some q }, false) ∧
      q_insert_tail st s true false =
        some ({ heap := st.heap ++ [none], q := some q }, false)) ∧
    (∀ q, st.q = some q → q.head = none → q_remove_head st sp c = some (st, sp, false)) := by
  refine ⟨?_, ?_, ?_, ?_, ?_, ?_, ?_⟩
  · intro st2 r hs
    cases hq : st.q with
    | none =>
      simp only [q_insert_head, hq, Option.some.injEq, Prod.mk.injEq] at hs
      obtain ⟨rfl, rfl⟩ := hs
      simp [hq]
    | some q =>
      rcases q_insert_head_cases hq hs with ⟨ha, h2, hr⟩ | ⟨ha, hb, hr, h2⟩ |
        ⟨ha, hb, hr, -⟩
      · subst ha h2 hr; simp [hq]
      · subst ha hb hr h2; simp [hq, load_append_none]
      · subst ha hb hr; simp
  · intro st2 r hs
    cases hq : st.q with
    | none =>
      simp only [q_insert_tail, hq, Option.some.injEq, Prod.mk.injEq] at hs
      obtain ⟨rfl, rfl⟩ := hs
      simp [hq]
    | some q =>
      rcases q_insert_tail_cases hq hs with ⟨ha, h2, hr⟩ | ⟨ha, hb, hr, h2⟩ |
        ⟨ha, hb, hr, -⟩
      · subst ha h2 hr; simp [hq]
      · subst ha hb hr h2; simp [hq, load_append_none]
      · subst ha hb hr; simp
  · intro st2 out r hs
    cases hq : st.q with
    | none =>
      simp only [q_remove_head, hq, Option.some.injEq, Prod.mk.injEq] at hs
      obtain ⟨rfl, rfl, rfl⟩ := hs
      simp [hq]
    | some q =>
      cases hh : q.head with
      | none =>
        simp only [q_remove_head, hq, hh, Option.some.injEq, Prod.mk.injEq] at hs
        obtain ⟨rfl, rfl, rfl⟩ := hs
        simp [hq, hh]
      | some hd =>
        obtain ⟨node, -, hr, -⟩ := q_remove_head_cases hq hh hs
        subst hr
        simp [hh]
  · intro hq
    simp [q_insert_head, q_insert_tail, q_remove_head, q_size, hq]
  · cases hq : st.q <;> simp [q_insert_head, q_insert_tail, hq]
  · intro q hq
    simp [q_insert_head, q_insert_tail, hq]
  · intro q hq hh
    simp [q_remove_head, hq, hh]

theorem failure_atomic_witness :
    q_insert_head ex_a [98] true false = some ({ heap := ex_a.heap ++ [none],
                                                  q := ex_a.q }, false) ∧
      q_insert_tail ex_a [98] true false = some ({ heap := ex_a.heap ++ [none],
                                                   q := ex_a.q }, false) :=
  (failure_atomic ex_a [98] true false none 0).2.2.2.2.2.1
    { head := some 0, tail := some 0, size := 1 } rfl

/-! ## Long strings and long runs of inserts -/

theorem wrap_int_range (i : Int) : INT_MIN ≤ wrap_int i ∧ wrap_int i ≤ INT_MAX := by
  unfold wrap_int INT_MIN INT_MAX
  omega

theorem q_size_some {st : State} {q : queue_t} (hq : st.q = some q) : q_size st = q.size := by
  simp [q_size, hq]

theorem cstr_replicate_ne (n : Nat) (hn : 3 ≤ n) :
    cstr (List.replicate n 97) ++ [0] ≠ [97, 97, 0] := by
  intro h
  have h1 := congrArg List.length h
  have h2 : (cstr (List.replicate n 97)).length = n := strlen_replicate n
  simp only [List.length_append, List.length_singleton, List.length_cons, List.length_nil,
    h2] at h1
  omega

theorem take_cstr_replicate (n : Nat) (hn : 7 ≤ n) :
    (cstr (List.replicate n 97)).take 7 = List.replicate 7 97 := by
  rw [cstr_replicate n, List.take_replicate, Nat.min_eq_left hn]

theorem q_insert_head_long :
    q_insert_head (q_new [] true) (List.replicate 4294967298 97) true true =
      some (ex_cut, true) :=
  q_insert_head_succeeds (q_new [] true) { head := none, tail := none, size := 0 }
    (List.replicate 4294967298 97) [97, 97, 0] rfl dup_value_long

theorem dup_value_nil : dup_value [] = some [0] := by decide

theorem run_inserts (n : Nat) : ∀ (st : State) (q : queue_t), st.q = some q →
    INT_MIN ≤ q.size → q.size ≤ INT_MAX →
    ∃ st2 q2, run st (List.replicate n (Op.insert_head [] true true)) = some st2 ∧
      st2.q = some q2 ∧ q2.size = wrap_int (q.size + (n : Int)) ∧
      tally st (List.replicate n (Op.insert_head [] true true)) = (n, 0) := by
  induction n with
  | zero =>
    intro st q hq h1 h2
    refine ⟨st, q, rfl, hq, ?_, rfl⟩
    rw [Nat.cast_zero, add_zero, wrap_int_of_range h1 h2]
  | succ n ih =>
    intro st q hq h1 h2
    have hi := q_insert_head_succeeds st q [] [0] hq dup_value_nil
    have hstep : step st (Op.insert_head [] true true) = some
        { heap := st.heap ++ [some { value := some [0], next := q.head }],
          q := some { head := some st.heap.length,
                      tail := if q.tail = none then some st.heap.length else q.tail,
                      size := wrap_int (q.size + 1) } } := by
      show (q_insert_head st [] true true).map (fun r => r.1) = _
      rw [hi]; rfl
    have hins : is_insert st (Op.insert_head [] true true) = true := by
      show (q_insert_head st [] true true).any (fun r => r.2) = true
      rw [hi]; rfl
    obtain ⟨st2, q2, hr, hq2, hs2, ht2⟩ := ih
      { heap := st.heap ++ [some { value := some [0], next := q.head }],
        q := some { head := some st.heap.length,
                    tail := if q.tail = none then some st.heap.length else q.tail,
                    size := wrap_int (q.size + 1) } }
      { head := some st.heap.length,
        tail := if q.tail = none then some st.heap.length else q.tail,
        size := wrap_int (q.size + 1) } rfl (wrap_int_range _).1 (wrap_int_range _).2
    refine ⟨st2, q2, ?_, hq2, ?_, ?_⟩
    · rw [List.replicate_succ]
      show (step st (Op.insert_head [] true true)).bind _ = _
      rw [hstep]; exact hr
    · rw [hs2]
      show wrap_int (wrap_int (q.size + 1) + (n : Int)) = wrap_int (q.size + ((n + 1 : Nat) : Int))
      rw [wrap_int_add]
      push_cast
      congr 1
      omega
    · rw [List.replicate_succ]
      simp only [tally, hstep, hins, ht2, is_remove]
      simp

/-! ## Claims on insertion and removal -/

/-- What `q_remove_head` does when the buffer argument is `NULL` or extends
over `bufsize >= 1` bytes: for a chain `a :: as` of elements holding strings it
returns `true`, frees exactly the head element, leaves the chain `as` with
every remaining value unchanged and in the same order, and takes one from
`size`; removing as many times as the chain is long, with every stored string
shorter than the buffer size, yields the values of the chain in order. -/
theorem q_remove_head_valid (st : State) (q : queue_t) (a : Nat) (as : List Nat)
    (sp : Option (List Nat)) (c : Nat) (hq : st.q = some q)
    (hc : Chain st.heap q.head (a :: as)) (hv : HasValues st.heap (a :: as))
    (hb : ValidBuffer sp c) :
    (∃ st2 out q2, q_remove_head st sp c = some (st2, out, true) ∧ st2.q = some q2 ∧
      Chain st2.heap q2.head as ∧ values st2.heap as = values st.heap as ∧
      q2.size = wrap_int (q.size - 1) ∧ load st2.heap a = none ∧
      ∀ b, b ≠ a → load st2.heap b = load st.heap b) ∧
    (∀ buf, 1 ≤ c → c ≤ buf.length → (∀ b ∈ a :: as, strlen (val st.heap b) < c) →
      ∃ st3, remove_n (as.length + 1) st buf c = some (st3, values st.heap (a :: as))) := by
  constructor
  · have hnd := chain_nodup hc
    obtain ⟨hp, n, hn, hr⟩ := hc
    have ha : a ∉ as := (List.nodup_cons.mp hnd).1
    refine ⟨_, _, _, q_remove_head_spec st q a n sp c hq hp hn
      (hv a (List.mem_cons_self _ _)) hb, rfl, ?_, values_free ha, rfl, load_free_same _ _,
      fun b hb => load_free_ne hb⟩
    exact seg_frame (fun b hb => load_free_ne (ne_of_mem_of_not_mem hb ha)) hr
  · intro buf hc1 hc2 hlen
    exact remove_n_spec (a :: as) st q buf c hq hc hv hc1 hc2 hlen

/-- C7: on the queue `a, b, c` (chain of three live elements holding these
strings) `q_remove_head` with a non-`NULL` buffer and `bufsize = 0` hands
`(size_t)(-1)` to `strncpy` and is undefined: it does not return `true` with
the head removed.  The calls with a `NULL` buffer, or with `bufsize = 1`,
return `true` on the same queue. -/
theorem remove_head_undefined_on_zero_capacity :
    Chain ex_abc.heap (some 0) [0, 1, 2] ∧
      values ex_abc.heap [0, 1, 2] = [[97], [98], [99]] ∧
      copy_len (val ex_abc.heap 0) 0 = 18446744073709551615 ∧
      q_remove_head ex_abc (some [7, 7, 7]) 0 = none ∧
      (∀ st2 out, q_remove_head ex_abc (some [7, 7, 7]) 0 ≠ some (st2, out, true)) ∧
      (q_remove_head ex_abc none 0).map (fun r => r.2) = some (none, true) ∧
      (q_remove_head ex_abc (some [7, 7, 7]) 1).map (fun r => r.2) =
        some (some [0, 7, 7], true) := by
  have h : q_remove_head ex_abc (some [7, 7, 7]) 0 = none := by decide
  refine ⟨by decide, by decide, by decide, h, ?_, by decide, by decide⟩
  intro st2 out he
  rw [h] at he
  cases he

/-- C8: for every present queue whose head element owns the value buffer `v`
(of a size that fits an `int`, as every buffer made by the insert functions
does) and every buffer `buf` extending over at least `c >= 1` bytes,
`q_remove_head(q, buf, c)` returns `true` and leaves in the buffer the first
`min (strlen v) (c - 1)` bytes of the string, then zero bytes up to index `c`,
and the old bytes of `buf` from index `c` on.  Hence the buffer has a zero
byte within its first `c` bytes, the string read back is `v` cut to `c - 1`
bytes, and nothing at index `c` or beyond is written. -/
theorem q_remove_head_buffer (st : State) (q : queue_t) (a : Nat) (buf : List Nat) (c : Nat)
    (hq : st.q = some q) (hh : q.head = some a) (hs : stored st.heap a = true)
    (hc1 : 1 ≤ c) (hc2 : c ≤ buf.length) :
    ∃ st2 out, q_remove_head st (some buf) c = some (st2, some out, true) ∧
      out = (cstr (val st.heap a)).take (c - 1) ++
        List.replicate (c - min (strlen (val st.heap a)) (c - 1)) 0 ++ buf.drop c ∧
      out.length = buf.length ∧ out.drop c = buf.drop c ∧
      cstr out = (cstr (val st.heap a)).take (c - 1) ∧
      strlen out = min (strlen (val st.heap a)) (c - 1) ∧ strlen out < c := by
  obtain ⟨n, v, hn, -, -⟩ := stored_iff.mp hs
  have hrm := q_remove_head_spec st q a n (some buf) c hq hh hn hs ⟨hc1, hc2⟩
  have hcs := copied_cstr (val st.heap a) buf c hc1
  have hsl : strlen (copied (val st.heap a) buf c) = min (strlen (val st.heap a)) (c - 1) := by
    unfold strlen
    rw [hcs, List.length_take, Nat.min_comm]
  refine ⟨_, _, hrm, rfl, copied_length _ _ _ hc1 hc2, copied_drop _ _ _ hc1, hcs, hsl, ?_⟩
  rw [hsl]; omega

theorem q_remove_head_buffer_witness :
    ∃ st2 out, q_remove_head ex_abc (some [7, 7, 7]) 2 = some (st2, some out, true) ∧
      out = (cstr (val ex_abc.heap 0)).take (2 - 1) ++
        List.replicate (2 - min (strlen (val ex_abc.heap 0)) (2 - 1)) 0 ++ [7, 7, 7].drop 2 ∧
      out.length = [7, 7, 7].length ∧ out.drop 2 = [7, 7, 7].drop 2 ∧
      cstr out = (cstr (val ex_abc.heap 0)).take (2 - 1) ∧
      strlen out = min (strlen (val ex_abc.heap 0)) (2 - 1) ∧ strlen out < 2 :=
  q_remove_head_buffer ex_abc { head := some 0, tail := some 2, size := 3 } 0 [7, 7, 7] 2
    rfl rfl (by decide) (by decide) (by decide)

theorem copy_len_zero (v : List Nat) : copy_len v 0 = 2 ^ 64 - 1 := by
  have h0 : strnlen v 0 = 0 := by unfold strnlen; simp
  unfold copy_len
  rw [h0]
  decide

/-- C3: the invariant fails in a reachable state.  Inserting one element into
a new queue and removing it gives `head` absent and `size` 0 while `tail`
still refers to the freed element, because `q_remove_head` never updates
`tail`. -/
theorem invariant_broken_after_remove :
    run (q_new [] true) [Op.insert_head [97] true true, Op.remove_head none 0] =
        some { heap := [none], q := some { head := none, tail := some 0, size := 0 } } ∧
      Reachable { heap := [none], q := some { head := none, tail := some 0, size := 0 } } ∧
      ¬ Invariant { heap := [none], q := some { head := none, tail := some 0, size := 0 } } := by
  refine ⟨by decide,
    ⟨[Op.insert_head [97] true true, Op.remove_head none 0], by decide⟩, ?_⟩
  rintro ⟨q, as, hq, -, -, hzero, -⟩
  simp only [Option.some.injEq] at hq
  subst hq
  exact absurd (hzero rfl).2 (by simp)

/-- C4: `q_remove_head` on the one-element queue `a` returns `true` and leaves
`head` absent, but `tail` still refers to the removed (freed) element; the
same holds after removing three times from `a, b, c`. -/
theorem remove_last_keeps_tail :
    q_remove_head ex_a none 0 =
        some ({ heap := [none], q := some { head := none, tail := some 0, size := 0 } },
          none, true) ∧
      run ex_abc [Op.remove_head none 0, Op.remove_head none 0, Op.remove_head none 0] =
        some { heap := [none, none, none],
               q := some { head := none, tail := some 2, size := 0 } } := by
  constructor <;> decide

/-- C5: in the state reached from a new queue by inserting `a` at the head,
removing it and inserting `b` at the head, the chain is `b` while `tail` still
refers to the freed element `a`; `q_insert_tail` then assigns through that
dangling pointer (`q->tail->next = newh`), which is undefined, instead of
linking the new element after `b`. -/
theorem insert_tail_after_emptying :
    run (q_new [] true)
        [Op.insert_head [97] true true, Op.remove_head none 0, Op.insert_head [98] true true] =
        some ex_stale ∧
      Chain ex_stale.heap (some 1) [1] ∧ load ex_stale.heap 0 = none ∧
      q_insert_tail ex_stale [99] true true = none := by
  refine ⟨by decide, by decide, by decide, by decide⟩

/-- C9: with a buffer size of 0 the length handed to `strncpy` is
`(size_t)(-1) = 2 ^ 64 - 1` whatever the stored string, so the call on the
one-element queue `a` writes past the end of the caller's buffer (undefined)
instead of leaving the buffer alone and returning `true`. -/
theorem remove_head_zero_capacity :
    (∀ v, copy_len v 0 = 18446744073709551615) ∧
      q_remove_head ex_a (some []) 0 = none ∧
      q_remove_head ex_a (some [7, 7]) 0 = none := by
  refine ⟨fun v => copy_len_zero v, by decide, by decide⟩

/-! ## The cached size -/

theorem has_value_append_cell {h : Heap} {a : Nat} (c : Option list_ele_t) (ha : a < h.length) :
    has_value (h ++ [c]) a = has_value h a := by
  unfold has_value load
  rw [List.getElem?_append_left ha]

theorem valued_append_cell {h : Heap} {p e : Option Nat} {as : List Nat}
    (c : Option list_ele_t) (hs : Seg h p as e) (hv : Valued h as) :
    Valued (h ++ [c]) as := by
  intro a ha
  obtain ⟨n, hn⟩ := chain_live hs ha
  rw [has_value_append_cell c (load_lt hn)]
  exact hv a ha

theorem has_value_new (h : Heap) (v : List Nat) (nx : Option Nat) :
    has_value (h ++ [some { value := some v, next := nx }]) h.length = true := by
  simp [has_value, load_append_new]

theorem has_value_free_ne {h : Heap} {a b : Nat} (hne : b ≠ a) :
    has_value (free h a) b = has_value h b := by
  unfold has_value
  rw [load_free_ne hne]

theorem good_new : Good (q_new [] true) :=
  ⟨_, [], rfl, rfl, rfl, by decide, fun _ h => absurd h (List.not_mem_nil _), Or.inl rfl⟩

theorem stale_append {h : Heap} {t : Nat} (c : Option list_ele_t) (ht : t < h.length)
    (hl : load h t = none) : t < (h ++ [c]).length ∧ load (h ++ [c]) t = none := by
  refine ⟨by simp; omega, ?_⟩
  rw [load_append_ne c (by omega)]; exact hl

theorem good_append_none {st : State} (hg : Good st) :
    Good { heap := st.heap ++ [none], q := st.q } := by
  obtain ⟨q, as, hq, hc, hsz, hb, hv, ht⟩ := hg
  refine ⟨q, as, hq, seg_append_cell _ hc, hsz, hb, valued_append_cell _ hc hv, ?_⟩
  rcases ht with ht | ⟨t, h1, h2, h3⟩
  · exact Or.inl ht
  · exact Or.inr ⟨t, h1, (stale_append none h2 h3).1, (stale_append none h2 h3).2⟩

theorem good_size {st : State} (hg : Good st) : 0 ≤ q_size st ∧ q_size st ≤ INT_MAX := by
  obtain ⟨q, as, hq, -, hsz, hb, -, -⟩ := hg
  rw [q_size_some hq, hsz]
  exact ⟨by omega, hb⟩

theorem good_insert_head {st st2 : State} {s : List Nat} {a b r : Bool} (hg : Good st)
    (hs : q_insert_head st s a b = some (st2, r))
    (hbd : r = true → q_size st + 1 ≤ INT_MAX) :
    Good st2 ∧ q_size st2 = q_size st + (if r = true then 1 else 0) := by
  obtain ⟨q, as, hq, hc, hsz, hb, hv, ht⟩ := hg
  rcases q_insert_head_cases hq hs with ⟨-, h2, hr⟩ | ⟨-, -, hr, h2⟩ | ⟨-, -, hr, v, -, h2⟩
  · subst h2 hr; exact ⟨⟨q, as, hq, hc, hsz, hb, hv, ht⟩, by simp⟩
  · subst h2 hr
    have := @good_append_none st ⟨q, as, hq, hc, hsz, hb, hv, ht⟩
    rw [hq] at this
    exact ⟨this, by simp [q_size, hq]⟩
  · subst h2 hr
    have hbd2 := hbd rfl
    rw [q_size_some hq, hsz] at hbd2
    have hw : wrap_int (q.size + 1) = (as.length : Int) + 1 := by
      rw [hsz]
      exact wrap_int_of_range (by unfold INT_MIN; omega) hbd2
    refine ⟨⟨_, st.heap.length :: as, rfl,
      ⟨rfl, _, load_append_new _ _, seg_append_cell _ hc⟩, ?_, ?_, ?_, ?_⟩, ?_⟩
    · show wrap_int (q.size + 1) = _
      rw [hw]; simp
    · simp only [List.length_cons]; push_cast; exact hbd2
    · intro x hx
      rcases List.mem_cons.mp hx with rfl | hx
      · exact has_value_new _ _ _
      · exact valued_append_cell _ hc hv x hx
    · rcases ht with ht | ⟨t, h1, h2, h3⟩
      · cases as with
        | nil =>
          have : q.tail = none := ht
          left; simp [this]
        | cons x xs =>
          left
          have hne : q.tail ≠ none := by rw [ht]; simp [List.getLast?_cons_cons]
          show (if q.tail = none then some st.heap.length else q.tail) =
            (st.heap.length :: x :: xs).getLast?
          rw [if_neg hne, List.getLast?_cons_cons]
          exact ht
      · right
        refine ⟨t, by simp [h1], (stale_append _ h2 h3).1, (stale_append _ h2 h3).2⟩
    · rw [q_size_some hq]
      show wrap_int (q.size + 1) = _
      rw [hw, hsz]; simp

theorem chain_head_none {h : Heap} {as : List Nat} (hc : Chain h none as) : as = [] := by
  cases as with
  | nil => rfl
  | cons a as => exact absurd hc.1 (by simp)

theorem good_insert_tail {st st2 : State} {s : List Nat} {a b r : Bool} (hg : Good st)
    (hs : q_insert_tail st s a b = some (st2, r))
    (hbd : r = true → q_size st + 1 ≤ INT_MAX) :
    Good st2 ∧ q_size st2 = q_size st + (if r = true then 1 else 0) := by
  obtain ⟨q, as, hq, hc, hsz, hb, hv, ht⟩ := hg
  rcases q_insert_tail_cases hq hs with ⟨-, h2, hr⟩ | ⟨-, -, hr, h2⟩ |
    ⟨-, -, hr, v, -, ⟨hh, h2⟩ | ⟨hd, t, nt, hh, htl, hl, h2⟩⟩
  · subst h2 hr; exact ⟨⟨q, as, hq, hc, hsz, hb, hv, ht⟩, by simp⟩
  · subst h2 hr
    have := @good_append_none st ⟨q, as, hq, hc, hsz, hb, hv, ht⟩
    rw [hq] at this
    exact ⟨this, by simp [q_size, hq]⟩
  · subst h2 hr
    have hbd2 := hbd rfl
    rw [q_size_some hq, hsz] at hbd2
    have hw : wrap_int (q.size + 1) = (as.length : Int) + 1 := by
      rw [hsz]
      exact wrap_int_of_range (by unfold INT_MIN; omega) hbd2
    rw [hh] at hc
    have hnil := chain_head_none hc
    subst hnil
    refine ⟨⟨_, [st.heap.length], rfl, ⟨rfl, _, load_append_new _ _, rfl⟩, ?_,
      by simp [INT_MAX], ?_,
      Or.inl rfl⟩, ?_⟩
    · show wrap_int (q.size + 1) = _
      rw [hw]; simp
    · intro x hx
      rw [List.mem_singleton] at hx
      subst hx
      exact has_value_new _ _ _
    · rw [q_size_some hq]
      show wrap_int (q.size + 1) = _
      rw [hw, hsz]; simp
  · subst h2 hr
    have hbd2 := hbd rfl
    rw [q_size_some hq, hsz] at hbd2
    have hw : wrap_int (q.size + 1) = (as.length : Int) + 1 := by
      rw [hsz]
      exact wrap_int_of_range (by unfold INT_MIN; omega) hbd2
    have hnd := chain_nodup hc
    rcases ht with ht | ⟨t2, h1, h2, h3⟩
    · -- `tail` is the last element of the chain
      have hne : as ≠ [] := by
        intro he; subst he
        rw [hh] at hc
        exact absurd hc (by simp [Chain, Seg])
      obtain ⟨xs, hxs⟩ : ∃ xs, as = xs ++ [t] := by
        refine ⟨as.dropLast, ?_⟩
        have h5 := List.dropLast_append_getLast hne
        have h6 : as.getLast? = some (as.getLast hne) := List.getLast?_eq_getLast _ hne
        rw [htl, h6] at ht
        simp only [Option.some.injEq] at ht
        rw [ht]; exact h5.symm
      subst hxs
      have htlt : t < st.heap.length := by
        obtain ⟨n, hn⟩ := chain_live hc (a := t) (by simp)
        exact load_lt hn
      have htx : t ∉ xs := by
        intro hx
        have := (List.nodup_append.mp hnd).2.2
        exact this hx (List.mem_singleton_self _)
      have hrel := relink_store hl (some st.heap.length)
      have hc1 : Chain (st.heap ++ [some { value := some v, next := none }]) q.head (xs ++ [t]) :=
        seg_append_cell _ hc
      obtain ⟨m, hs1, hs2⟩ := seg_append.mp hc1
      have hm : m = some t := hs2.1
      subst hm
      have hlen_ne : st.heap.length ≠ t := by omega
      refine ⟨⟨_, (xs ++ [t]) ++ [st.heap.length], rfl, ?_, ?_, ?_, ?_, ?_⟩, ?_⟩
      · rw [hh] at hs1
        rw [List.append_assoc]
        refine seg_append.mpr ⟨some t, ?_, ?_⟩
        · exact seg_frame (fun x hx => load_store_ne _ (ne_of_mem_of_not_mem hx htx)) hs1
        · refine ⟨rfl, _, load_store_same _ (load_lt hl), rfl,
            { value := some v, next := none }, ?_, rfl⟩
          rw [load_store_ne _ hlen_ne]
          exact load_append_new _ _
      · show wrap_int (q.size + 1) = _
        rw [hw]
        simp only [List.length_append, List.length_singleton]
        push_cast
        rfl
      · simp only [List.length_append, List.length_singleton] at hbd2 ⊢
        push_cast at hbd2 ⊢
        exact hbd2
      · apply hrel.valued
        intro x hx
        rcases List.mem_append.mp hx with hx | hx
        · exact valued_append_cell _ hc hv x hx
        · rw [List.mem_singleton] at hx
          subst hx
          exact has_value_new _ _ _
      · left
        simp
      · rw [q_size_some hq]
        show wrap_int (q.size + 1) = _
        rw [hw, hsz]; simp
    · -- `tail` is dangling: the assignment through it is undefined
      rw [htl] at h1
      cases h1
      rw [(stale_append _ h2 h3).2] at hl
      cases hl

theorem good_remove_head {st st2 : State} {sp out : Option (List Nat)} {c : Nat} {r : Bool}
    (hg : Good st) (hs : q_remove_head st sp c = some (st2, out, r)) :
    Good st2 ∧ q_size st2 = q_size st - (if r = true then 1 else 0) := by
  obtain ⟨q, as, hq, hc, hsz, hb, hv, ht⟩ := hg
  cases hh : q.head with
  | none =>
    simp only [q_remove_head, hq, hh, Option.some.injEq, Prod.mk.injEq] at hs
    obtain ⟨rfl, -, rfl⟩ := hs
    exact ⟨⟨q, as, hq, hc, hsz, hb, hv, ht⟩, by simp⟩
  | some hd =>
    obtain ⟨node, hl, hr, h2⟩ := q_remove_head_cases hq hh hs
    subst h2 hr
    have hnd := chain_nodup hc
    cases as with
    | nil => rw [hh] at hc; exact absurd hc (by simp [Chain, Seg])
    | cons a as =>
      obtain ⟨hp, n, hn, hrest⟩ := hc
      rw [hh] at hp
      cases hp
      rw [hl] at hn
      cases hn
      have ha : hd ∉ as := (List.nodup_cons.mp hnd).1
      simp only [List.length_cons] at hsz hb
      push_cast at hsz hb
      have hw : wrap_int (q.size - 1) = (as.length : Int) := by
        rw [hsz, Int.add_sub_cancel]
        exact wrap_int_of_range (by unfold INT_MIN; omega) (by omega)
      refine ⟨⟨_, as, rfl,
        seg_frame (fun b hb => load_free_ne (ne_of_mem_of_not_mem hb ha)) hrest, hw,
        by omega, ?_, ?_⟩, ?_⟩
      · intro b hb
        rw [has_value_free_ne (ne_of_mem_of_not_mem hb ha)]
        exact hv b (List.mem_cons_of_mem _ hb)
      · have hlen : (free st.heap hd).length = st.heap.length := by simp [free]
        rcases ht with ht | ⟨t, h1, h2, h3⟩
        · cases as with
          | nil =>
            right
            refine ⟨hd, ht, ?_, load_free_same _ _⟩
            rw [hlen]; exact load_lt hl
          | cons x xs =>
            left
            rw [List.getLast?_cons_cons] at ht
            exact ht
        · right
          refine ⟨t, h1, by rw [hlen]; exact h2, ?_⟩
          by_cases hthd : t = hd
          · rw [hthd]; exact load_free_same _ _
          · rw [load_free_ne hthd]; exact h3
      · rw [q_size_some hq]
        show wrap_int (q.size - 1) = _
        rw [hw, hsz]; simp

theorem good_reverse {st st2 : State} (hg : Good st) (hs : q_reverse st = some st2) :
    Good st2 ∧ q_size st2 = q_size st := by
  obtain ⟨q, as, hq, hc, hsz, hb, hv, ht⟩ := hg
  cases as with
  | nil =>
    have hh : q.head = none := hc
    simp only [q_reverse, hq, hh, Option.some.injEq] at hs
    rw [← hs]
    exact ⟨⟨q, [], hq, hc, hsz, hb, hv, ht⟩, rfl⟩
  | cons a as =>
    obtain ⟨h2, hrv, hc2, hrel⟩ := q_reverse_spec st q a as hq hc
    rw [hrv] at hs
    cases hs
    refine ⟨⟨_, (a :: as).reverse, rfl, hc2, by simpa using hsz, by simpa using hb,
      hrel.valued (fun x hx => hv x (List.mem_reverse.mp hx)), Or.inl ?_⟩, ?_⟩
    · rw [List.getLast?_reverse]; rfl
    · simp [q_size, hq]

theorem good_sort {st st2 : State} (hg : Good st) (hs : q_sort st = some st2) :
    Good st2 ∧ q_size st2 = q_size st := by
  obtain ⟨q, as, hq, hc, hsz, hb, hv, ht⟩ := hg
  obtain ⟨h2, hd, tl, hsort, hc2, hrel, hbig, hsmall⟩ := q_sort_spec st q as hq hc hv hsz
  rw [hsort] at hs
  cases hs
  have hperm := sorted_chain_perm st.heap as
  refine ⟨?_, by simp [q_size, hq]⟩
  by_cases hlen : as.length ≤ 1
  · obtain ⟨e1, e2, e3⟩ := hsmall hlen
    subst e1 e2 e3
    exact ⟨_, as, rfl, hc, hsz, hb, hv, ht⟩
  · obtain ⟨xs, t, hxt, htl⟩ := hbig (by omega)
    subst htl
    refine ⟨_, sorted_chain st.heap as, rfl, hc2, by rw [hperm.length_eq]; exact hsz,
      by rw [hperm.length_eq]; exact hb,
      hrel.valued (fun x hx => hv x (hperm.mem_iff.mp hx)), Or.inl ?_⟩
    rw [hxt]; simp

theorem good_step {st st2 : State} {op : Op} (hg : Good st) (hs : step st op = some st2)
    (hbd : q_size st + (if is_insert st op = true then 1 else 0) ≤ INT_MAX) :
    Good st2 ∧ q_size st2 = q_size st + (if is_insert st op = true then 1 else 0) -
      (if is_remove st op = true then 1 else 0) := by
  cases op with
  | insert_head s a b =>
    obtain ⟨⟨st3, r⟩, hr, rfl⟩ := Option.map_eq_some'.mp hs
    simp only [is_insert, is_remove, hr, Option.any_some] at hbd ⊢
    obtain ⟨h1, h2⟩ := good_insert_head hg hr (fun h => by simpa [h] using hbd)
    exact ⟨h1, by rw [h2]; simp⟩
  | insert_tail s a b =>
    obtain ⟨⟨st3, r⟩, hr, rfl⟩ := Option.map_eq_some'.mp hs
    simp only [is_insert, is_remove, hr, Option.any_some] at hbd ⊢
    obtain ⟨h1, h2⟩ := good_insert_tail hg hr (fun h => by simpa [h] using hbd)
    exact ⟨h1, by rw [h2]; simp⟩
  | remove_head sp n =>
    obtain ⟨⟨st3, out, r⟩, hr, rfl⟩ := Option.map_eq_some'.mp hs
    simp only [is_insert, is_remove, hr, Option.any_some]
    obtain ⟨h1, h2⟩ := good_remove_head hg hr
    exact ⟨h1, by rw [h2]; simp⟩
  | reverse =>
    obtain ⟨h1, h2⟩ := good_reverse hg hs
    exact ⟨h1, by rw [h2]; simp [is_insert, is_remove]⟩
  | sort =>
    obtain ⟨h1, h2⟩ := good_sort hg hs
    exact ⟨h1, by rw [h2]; simp [is_insert, is_remove]⟩

theorem tally_cons {st st1 : State} {op : Op} (ops : List Op) (h1 : step st op = some st1) :
    tally st (op :: ops) =
      ((tally st1 ops).1 + (if is_insert st op = true then 1 else 0),
       (tally st1 ops).2 + (if is_remove st op = true then 1 else 0)) := by
  simp only [tally, h1]

theorem good_run {ops : List Op} : ∀ {st st2 : State}, Good st → run st ops = some st2 →
    (∀ k, k ≤ ops.length →
      q_size st + ((tally st (ops.take k)).1 : Int) - ((tally st (ops.take k)).2 : Int) ≤
        INT_MAX) →
    Good st2 ∧
      q_size st2 = q_size st + ((tally st ops).1 : Int) - ((tally st ops).2 : Int) := by
  induction ops with
  | nil =>
    intro st st2 hg hs _
    simp only [run, Option.some.injEq] at hs
    subst hs
    exact ⟨hg, by simp [tally]⟩
  | cons op ops ih =>
    intro st st2 hg hs hbd
    simp only [run] at hs
    obtain ⟨st1, h1, h2⟩ := Option.bind_eq_some.mp hs
    have hsz := good_size hg
    have hb1 := hbd 1 (by simp)
    rw [List.take_succ_cons, List.take_zero, tally_cons [] h1] at hb1
    simp only [tally] at hb1
    have hstep : q_size st + (if is_insert st op = true then 1 else 0) ≤ INT_MAX := by
      by_cases hi : is_insert st op = true
      · by_cases hr : is_remove st op = true
        · cases op <;> simp [is_insert, is_remove] at hi hr
        · simp only [hi, hr, if_true] at hb1 ⊢
          simp at hb1
          omega
      · simp only [hi]
        simp
        exact hsz.2
    obtain ⟨hg1, e1⟩ := good_step hg h1 hstep
    have hrest : ∀ k, k ≤ ops.length →
        q_size st1 + ((tally st1 (ops.take k)).1 : Int) - ((tally st1 (ops.take k)).2 : Int) ≤
          INT_MAX := by
      intro k hk
      have := hbd (k + 1) (by simp; omega)
      rw [List.take_succ_cons, tally_cons _ h1] at this
      rw [e1]
      push_cast at this
      by_cases hi : is_insert st op = true <;> by_cases hr : is_remove st op = true <;>
        simp [hi, hr] at this ⊢ <;> omega
    obtain ⟨hg2, e2⟩ := ih hg1 h2 hrest
    refine ⟨hg2, ?_⟩
    rw [e2, e1, tally_cons _ h1]
    push_cast
    by_cases hi : is_insert st op = true <;> by_cases hr : is_remove st op = true <;>
      simp [hi, hr] <;> omega

end Queue
